import Mathlib

/-!
# Canonical encoding of Tendermint consensus artifacts: a shallow embedding

This file embeds `proto/tendermint/types/canonical.pb.go` — the deterministic
signature pre-image encoder/decoder for `CanonicalBlockID`,
`CanonicalPartSetHeader`, `CanonicalProposal` and `CanonicalVote` — into Lean
and proves the specified properties of it.

Modelling conventions:
* Go byte slices (`[]byte`) become `List Nat` whose elements are bytes
  (`< 256`); strings become their byte lists.
* Go `int32`/`int64` become `Int` with explicit two's-complement conversions
  (`toInt32`, `toInt64`, `intToU64`); `uint32` becomes `Nat` (values `< 2^32`);
  unsigned wrap-around is explicit `% 2^32` / `% 2^64`, and `|=` is `|||`.
* `MarshalToSizedBuffer` writes fields back-to-front from the end of a sized
  buffer, which produces the fields in ascending tag order; the embedding
  `Marshal` produces the same bytes as the corresponding forward concatenation.
* The decoders' `for iNdEx < l` loops run at most one iteration per input byte
  (a field tag is at least one byte), so they are embedded as a step function
  (one loop iteration) driven by a fuel-indexed loop with fuel
  `length + 1`, which is always sufficient.  `iNdEx` is the explicit
  `consumed` counter threaded through the loop (needed because the generated
  code checks `postIndex < 0`, i.e. signed-64-bit wrap of `iNdEx + msglen`).
* Go errors become the inductive `PErr`: `io.ErrUnexpectedEOF ↦ truncated`,
  `ErrIntOverflowCanonical ↦ overflow`, `ErrInvalidLengthCanonical ↦
  invalidLength`, `ErrUnexpectedEndOfGroupCanonical ↦ unexpectedEndOfGroup`,
  and the four distinct `fmt.Errorf` shapes keep their own constructors.
-/

set_option maxHeartbeats 1000000

deriving instance DecidableEq for Except

namespace Canonical

/-- Decode-error kinds of the canonical decoders (see the module docstring
for the correspondence with the Go error values). -/
inductive PErr where
  | truncated
  | overflow
  | invalidLength
  | unexpectedEndOfGroup
  | endGroupNonGroup
  | illegalTag
  | wrongWireType
  | illegalWireType
  | invalidTimestamp
  deriving DecidableEq, Repr

/-- Reinterpret the low 32 bits of a natural number as a signed `int32`
(two's complement), as Go's `int32(x)` conversion does. -/
def toInt32 (n : Nat) : Int :=
  if n % 2 ^ 32 < 2 ^ 31 then (n % 2 ^ 32 : Nat) else (n % 2 ^ 32 : Nat) - 2 ^ 32

/-- Reinterpret the low 64 bits of a natural number as a signed `int64`
(two's complement), as Go's `int64(x)` conversion does. -/
def toInt64 (n : Nat) : Int :=
  if n % 2 ^ 64 < 2 ^ 63 then (n % 2 ^ 64 : Nat) else (n % 2 ^ 64 : Nat) - 2 ^ 64

/-- Go's `uint64(x)` conversion of a signed 64-bit value: the two's-complement
bit pattern, as a natural number. -/
def intToU64 (x : Int) : Nat := (x % 2 ^ 64).toNat

/-- Structural-fuel helper for `encVarint` (the fuel only serves to make the
recursion structural; `encVarint_eq` below recovers the natural recurrence). -/
def encVarintAux : Nat → Nat → List Nat
  | 0, v => [v]
  | fuel + 1, v => if v < 128 then [v] else (v % 128 + 128) :: encVarintAux fuel (v / 128)

/-- The byte sequence written by `encodeVarintCanonical`: base-128 groups,
least significant first, continuation bit `0x80` on all but the last. -/
def encVarint (v : Nat) : List Nat := encVarintAux v v

/-- `sovCanonical`: `(bits.Len64(x|1) + 6) / 7`, the width of the varint
encoding of `x`. -/
def sovCanonical (x : Nat) : Nat := (Nat.size (x ||| 1) + 6) / 7

/-- `encoding_binary.LittleEndian.PutUint64`: the 8 little-endian bytes of
`v` (mod `2^64`). -/
def putUint64LE (v : Nat) : List Nat :=
  [v % 256, v / 2 ^ 8 % 256, v / 2 ^ 16 % 256, v / 2 ^ 24 % 256,
   v / 2 ^ 32 % 256, v / 2 ^ 40 % 256, v / 2 ^ 48 % 256, v / 2 ^ 56 % 256]

/-- `encoding_binary.LittleEndian.Uint64` on the first 8 bytes of a list. -/
def uint64LE : List Nat → Nat
  | b0 :: b1 :: b2 :: b3 :: b4 :: b5 :: b6 :: b7 :: _ =>
      b0 + b1 * 2 ^ 8 + b2 * 2 ^ 16 + b3 * 2 ^ 24 + b4 * 2 ^ 32 + b5 * 2 ^ 40 +
        b6 * 2 ^ 48 + b7 * 2 ^ 56
  | _ => 0

/-- `CanonicalPartSetHeader{Total uint32, Hash []byte}`. -/
structure CanonicalPartSetHeader where
  total : Nat
  hash : List Nat
  deriving DecidableEq, Repr

/-- `CanonicalBlockID{Hash []byte, PartSetHeader CanonicalPartSetHeader}`. -/
structure CanonicalBlockID where
  hash : List Nat
  partSetHeader : CanonicalPartSetHeader
  deriving DecidableEq, Repr

/-- Modelled from the spec: the timestamp codec (gogoproto `StdTime`, not part
of this repository's sources) "normalizes a point-in-time to (seconds,
nanoseconds-in-[0,1e9)) and encodes as a nested length-delimited message" with
two varint fields, `seconds : int64` (field 1) and `nanos : int32` (field 2). -/
structure Timestamp where
  seconds : Int
  nanos : Int
  deriving DecidableEq, Repr

/-- Modelled from the spec: `VoteExtensionToSign` (declared in a file not under
the excerpt's sources) carries the vote extension, an "optional opaque
payload" whose bytes are a single length-delimited field (field 1). -/
structure VoteExtensionToSign where
  ext : List Nat
  deriving DecidableEq, Repr

/-- `CanonicalProposal` (field tags 1–7: type, height, round, pol_round,
block_id, timestamp, chain_id). -/
structure CanonicalProposal where
  type : Int
  height : Int
  round : Int
  polRound : Int
  blockID : Option CanonicalBlockID
  timestamp : Timestamp
  chainID : List Nat
  deriving DecidableEq, Repr

/-- `CanonicalVote` (field tags 1–7: type, height, round, block_id,
timestamp, chain_id, vote_extension). -/
structure CanonicalVote where
  type : Int
  height : Int
  round : Int
  blockID : Option CanonicalBlockID
  timestamp : Timestamp
  chainID : List Nat
  voteExtension : Option VoteExtensionToSign
  deriving DecidableEq, Repr

/-! ## Encoders

Each `Marshal` is the byte string produced by the corresponding
`MarshalToSizedBuffer` (which writes the fields in descending tag order from
the end of the buffer, i.e. the bytes read forward in ascending tag order). -/

/-- `CanonicalPartSetHeader.MarshalToSizedBuffer`: tag-1 varint `total`
(omitted when zero), tag-2 length-delimited `hash` (omitted when empty). -/
def CanonicalPartSetHeader.Marshal (m : CanonicalPartSetHeader) : List Nat :=
  (if m.total ≠ 0 then 0x8 :: encVarint m.total else [])
    ++ (if 0 < m.hash.length then 0x12 :: (encVarint m.hash.length ++ m.hash) else [])

/-- `CanonicalBlockID.MarshalToSizedBuffer`: tag-1 length-delimited `hash`
(omitted when empty), tag-2 embedded `part_set_header` (always emitted). -/
def CanonicalBlockID.Marshal (m : CanonicalBlockID) : List Nat :=
  (if 0 < m.hash.length then 0xa :: (encVarint m.hash.length ++ m.hash) else [])
    ++ (0x12 :: (encVarint m.partSetHeader.Marshal.length ++ m.partSetHeader.Marshal))

/-- Modelled from the spec: gogoproto `StdTimeMarshalTo` encodes the
normalized `(seconds, nanos)` pair as a two-field message, varint `seconds`
(field 1) and varint `nanos` (field 2), zero values omitted. -/
def Timestamp.Marshal (ts : Timestamp) : List Nat :=
  (if ts.seconds ≠ 0 then 0x8 :: encVarint (intToU64 ts.seconds) else [])
    ++ (if ts.nanos ≠ 0 then 0x10 :: encVarint (intToU64 ts.nanos) else [])

/-- Modelled from the spec: `VoteExtensionToSign.MarshalToSizedBuffer` emits
its opaque payload as a single tag-1 length-delimited field (omitted when
empty). -/
def VoteExtensionToSign.Marshal (e : VoteExtensionToSign) : List Nat :=
  if 0 < e.ext.length then 0xa :: (encVarint e.ext.length ++ e.ext) else []

/-- `CanonicalProposal.MarshalToSizedBuffer`: varint `type` (tag 1, omit
zero), fixed64 `height`/`round` (tags 2/3, omit zero), varint `pol_round`
(tag 4, omit zero, plain `uint64` cast), embedded `block_id` (tag 5, omit
`nil`), embedded `timestamp` (tag 6, always emitted), bytes `chain_id`
(tag 7, omit empty). -/
def CanonicalProposal.Marshal (m : CanonicalProposal) : List Nat :=
  (if m.type ≠ 0 then 0x8 :: encVarint (intToU64 m.type) else [])
    ++ (if m.height ≠ 0 then 0x11 :: putUint64LE (intToU64 m.height) else [])
    ++ (if m.round ≠ 0 then 0x19 :: putUint64LE (intToU64 m.round) else [])
    ++ (if m.polRound ≠ 0 then 0x20 :: encVarint (intToU64 m.polRound) else [])
    ++ (match m.blockID with
        | some b => 0x2a :: (encVarint b.Marshal.length ++ b.Marshal)
        | none => [])
    ++ (0x32 :: (encVarint m.timestamp.Marshal.length ++ m.timestamp.Marshal))
    ++ (if 0 < m.chainID.length then 0x3a :: (encVarint m.chainID.length ++ m.chainID) else [])

/-- `CanonicalVote.MarshalToSizedBuffer`: varint `type` (tag 1, omit zero),
fixed64 `height`/`round` (tags 2/3, omit zero), embedded `block_id` (tag 4,
omit `nil`), embedded `timestamp` (tag 5, always emitted), bytes `chain_id`
(tag 6, omit empty), embedded `vote_extension` (tag 7, omit `nil`). -/
def CanonicalVote.Marshal (m : CanonicalVote) : List Nat :=
  (if m.type ≠ 0 then 0x8 :: encVarint (intToU64 m.type) else [])
    ++ (if m.height ≠ 0 then 0x11 :: putUint64LE (intToU64 m.height) else [])
    ++ (if m.round ≠ 0 then 0x19 :: putUint64LE (intToU64 m.round) else [])
    ++ (match m.blockID with
        | some b => 0x22 :: (encVarint b.Marshal.length ++ b.Marshal)
        | none => [])
    ++ (0x2a :: (encVarint m.timestamp.Marshal.length ++ m.timestamp.Marshal))
    ++ (if 0 < m.chainID.length then 0x32 :: (encVarint m.chainID.length ++ m.chainID) else [])
    ++ (match m.voteExtension with
        | some e => 0x3a :: (encVarint e.Marshal.length ++ e.Marshal)
        | none => [])

/-! ## Sizes -/

/-- `CanonicalPartSetHeader.Size`. -/
def CanonicalPartSetHeader.Size (m : CanonicalPartSetHeader) : Nat :=
  (if m.total ≠ 0 then 1 + sovCanonical m.total else 0)
    + (if 0 < m.hash.length then 1 + m.hash.length + sovCanonical m.hash.length else 0)

/-- `CanonicalBlockID.Size`. -/
def CanonicalBlockID.Size (m : CanonicalBlockID) : Nat :=
  (if 0 < m.hash.length then 1 + m.hash.length + sovCanonical m.hash.length else 0)
    + (1 + m.partSetHeader.Size + sovCanonical m.partSetHeader.Size)

/-- Modelled from the spec: gogoproto `SizeOfStdTime`, the size of the
two-field nested timestamp message. -/
def Timestamp.Size (ts : Timestamp) : Nat :=
  (if ts.seconds ≠ 0 then 1 + sovCanonical (intToU64 ts.seconds) else 0)
    + (if ts.nanos ≠ 0 then 1 + sovCanonical (intToU64 ts.nanos) else 0)

/-- Modelled from the spec: `VoteExtensionToSign.Size`. -/
def VoteExtensionToSign.Size (e : VoteExtensionToSign) : Nat :=
  if 0 < e.ext.length then 1 + e.ext.length + sovCanonical e.ext.length else 0

/-- `CanonicalProposal.Size`. -/
def CanonicalProposal.Size (m : CanonicalProposal) : Nat :=
  (if m.type ≠ 0 then 1 + sovCanonical (intToU64 m.type) else 0)
    + (if m.height ≠ 0 then 9 else 0)
    + (if m.round ≠ 0 then 9 else 0)
    + (if m.polRound ≠ 0 then 1 + sovCanonical (intToU64 m.polRound) else 0)
    + (match m.blockID with
       | some b => 1 + b.Size + sovCanonical b.Size
       | none => 0)
    + (1 + m.timestamp.Size + sovCanonical m.timestamp.Size)
    + (if 0 < m.chainID.length then 1 + m.chainID.length + sovCanonical m.chainID.length else 0)

/-- `CanonicalVote.Size`. -/
def CanonicalVote.Size (m : CanonicalVote) : Nat :=
  (if m.type ≠ 0 then 1 + sovCanonical (intToU64 m.type) else 0)
    + (if m.height ≠ 0 then 9 else 0)
    + (if m.round ≠ 0 then 9 else 0)
    + (match m.blockID with
       | some b => 1 + b.Size + sovCanonical b.Size
       | none => 0)
    + (1 + m.timestamp.Size + sovCanonical m.timestamp.Size)
    + (if 0 < m.chainID.length then 1 + m.chainID.length + sovCanonical m.chainID.length else 0)
    + (match m.voteExtension with
       | some e => 1 + e.Size + sovCanonical e.Size
       | none => 0)

/-! ## Decoders

Every varint read in the generated file is the same inlined loop:
`for shift := 0; ; shift += 7 { if shift >= 64 → overflow; if iNdEx >= l →
EOF; b := dAtA[iNdEx]; iNdEx++; acc |= (b&0x7F) << shift; if b < 0x80 break }`
with the accumulator wrapping at the accumulator's width (here kept at 64
bits; narrower assignments take `% 2^32` at the use site, which reproduces
the per-step 32-bit wrap). -/

/-- One inlined varint read: returns the accumulated (64-bit-wrapped) value
and the unread remainder of the buffer. -/
def decodeVarintAux : Nat → Nat → List Nat → Except PErr (Nat × List Nat)
  | shift, _, [] =>
    if 64 ≤ shift then .error .overflow else .error .truncated
  | shift, acc, b :: rest =>
    if 64 ≤ shift then .error .overflow
    else
      let acc2 := acc ||| (b % 128) * 2 ^ shift % 2 ^ 64
      if b < 128 then .ok (acc2, rest) else decodeVarintAux (shift + 7) acc2 rest

/-- A varint read started with `shift = 0`, `acc = 0`. -/
def decodeVarint (l : List Nat) : Except PErr (Nat × List Nat) :=
  decodeVarintAux 0 0 l

/-- The length-delimited-field prelude repeated in every `Unmarshal` case of
wire type 2: decode `msglen`; `msglen < 0 → ErrInvalidLengthCanonical`;
`postIndex := iNdEx + msglen`; `postIndex < 0 → ErrInvalidLengthCanonical`
(signed-64-bit wrap, `c1` being the bytes consumed so far including the
length varint); `postIndex > l → io.ErrUnexpectedEOF`; on success the
payload slice, the new consumed count and the remainder. -/
def lenDelim (c1 : Nat) (r1 : List Nat) : Except PErr (List Nat × Nat × List Nat) :=
  match decodeVarint r1 with
  | .error e => .error e
  | .ok (v, r2) =>
    if 2 ^ 63 ≤ v then .error .invalidLength
    else
      let c2 := c1 + (r1.length - r2.length)
      if 2 ^ 63 ≤ c2 + v then .error .invalidLength
      else if r2.length < v then .error .truncated
      else .ok (r2.take v, c2 + v, r2.drop v)

/-- Result of one iteration of a decoder loop: either the loop returns
(`done`), or it continues with a new consumed count, partial message and
remaining buffer (`cont`). -/
inductive StepRes (α : Type) where
  | done : Except PErr α → StepRes α
  | cont : Nat → α → List Nat → StepRes α

/-- The `switch wireType` of `skipCanonical` (0 skip one varint, 1 skip 8
bytes, 2 read a length then skip that many bytes, 3/4 group start/end with
depth tracking, 5 skip 4 bytes, otherwise illegal): given the consumed count
`c1` just past the tag, the current group depth and the remaining bytes,
produce the consumed count, depth and remaining bytes after the field
body. -/
def skipWire (wireType c1 depth : Nat) (r1 : List Nat) :
    Except PErr (Nat × Nat × List Nat) :=
  if wireType = 0 then
    match decodeVarint r1 with
    | .error e => .error e
    | .ok (_, r2) => .ok (c1 + (r1.length - r2.length), depth, r2)
  else if wireType = 1 then .ok (c1 + 8, depth, r1.drop 8)
  else if wireType = 2 then
    match decodeVarint r1 with
    | .error e => .error e
    | .ok (v, r2) =>
      if 2 ^ 63 ≤ v then .error .invalidLength
      else .ok (c1 + (r1.length - r2.length) + v, depth, r2.drop v)
  else if wireType = 3 then .ok (c1, depth + 1, r1)
  else if wireType = 4 then
    if depth = 0 then .error .unexpectedEndOfGroup
    else .ok (c1, depth - 1, r1)
  else if wireType = 5 then .ok (c1 + 4, depth, r1.drop 4)
  else .error .illegalWireType

/-- One iteration of `skipCanonical`'s walker loop: read a tag, run the
wire-type switch, then the generated epilogue: `iNdEx < 0 →
ErrInvalidLengthCanonical` (signed wrap of the consumed count),
`depth == 0 → return iNdEx`, else continue. -/
def skipStep (c depth : Nat) (l : List Nat) : StepRes Nat :=
  match decodeVarint l with
  | .error e => .done (.error e)
  | .ok (wire, r1) =>
    match skipWire (wire % 8) (c + (l.length - r1.length)) depth r1 with
    | .error e => .done (.error e)
    | .ok (c2, depth2, r2) =>
      if 2 ^ 63 ≤ c2 then .done (.error .invalidLength)
      else if depth2 = 0 then .done (.ok c2)
      else .cont c2 depth2 r2

/-- The `for iNdEx < l` loop of `skipCanonical`, fuel-indexed; exhausting the
buffer (or the fuel, which the entry point makes impossible) is
`io.ErrUnexpectedEOF`. -/
def skipLoop : Nat → Nat → Nat → List Nat → Except PErr Nat
  | 0, _, _, _ => .error .truncated
  | _ + 1, _, _, [] => .error .truncated
  | fuel + 1, c, depth, b :: bs =>
    match skipStep c depth (b :: bs) with
    | .done r => r
    | .cont c2 depth2 rest => skipLoop fuel c2 depth2 rest

/-- `skipCanonical`: number of bytes occupied by the field starting the
buffer (which may exceed the buffer length: wire types 1, 2 and 5 advance
without a bounds check — the caller checks). -/
def skipCanonical (d : List Nat) : Except PErr Nat := skipLoop (d.length + 1) 0 0 d

/-- A generic `for iNdEx < l` decoder loop: `step` is one loop iteration;
an empty buffer exits the loop successfully (`iNdEx` never exceeds `l` at
the loop head in the message decoders).  Fuel-indexed; one input byte per
iteration is always enough fuel. -/
def msgLoop (step : Nat → α → List Nat → StepRes α) :
    Nat → Nat → α → List Nat → Except PErr α
  | 0, _, _, _ => .error .truncated
  | _ + 1, _, m, [] => .ok m
  | fuel + 1, c, m, b :: bs =>
    match step c m (b :: bs) with
    | .done r => r
    | .cont c2 m2 rest => msgLoop step fuel c2 m2 rest

/-- Run a decoder loop with sufficient fuel. -/
def runMsg (step : Nat → α → List Nat → StepRes α) (c : Nat) (m : α) (l : List Nat) :
    Except PErr α :=
  msgLoop step (l.length + 1) c m l

/-- The tag prelude shared by every message `Unmarshal` loop iteration:
decode the tag varint, `fieldNum := int32(wire >> 3)`,
`wireType := int(wire & 0x7)`; `wireType == 4` is "end group for non-group";
`fieldNum <= 0` (zero or negative as `int32`) is an illegal tag. -/
def unmarshalPrelude (c : Nat) (l : List Nat)
    (body : Nat → Nat → Nat → List Nat → StepRes α) : StepRes α :=
  match decodeVarint l with
  | .error e => .done (.error e)
  | .ok (wire, r1) =>
    let c1 := c + (l.length - r1.length)
    let fieldNum := wire / 8 % 2 ^ 32
    let wireType := wire % 8
    if wireType = 4 then .done (.error .endGroupNonGroup)
    else if fieldNum = 0 ∨ 2 ^ 31 ≤ fieldNum then .done (.error .illegalTag)
    else body c1 fieldNum wireType r1

/-- The `default:` branch shared by every message `Unmarshal`:
`iNdEx = preIndex; skippy := skipCanonical(dAtA[iNdEx:])`, then
`(skippy < 0) || (iNdEx+skippy) < 0 → ErrInvalidLengthCanonical`,
`(iNdEx + skippy) > l → io.ErrUnexpectedEOF`, `iNdEx += skippy`.
`c` and `l` are the consumed count and buffer at `preIndex`. -/
def skipDefault (c : Nat) (m : α) (l : List Nat) : StepRes α :=
  match skipCanonical l with
  | .error e => .done (.error e)
  | .ok skippy =>
    if 2 ^ 63 ≤ c + skippy then .done (.error .invalidLength)
    else if l.length < skippy then .done (.error .truncated)
    else .cont (c + skippy) m (l.drop skippy)

/-- One iteration of `CanonicalPartSetHeader.Unmarshal`: field 1 varint
`total` (32-bit wrap), field 2 bytes `hash`, default skip. -/
def pshStep (c : Nat) (m : CanonicalPartSetHeader) (l : List Nat) :
    StepRes CanonicalPartSetHeader :=
  unmarshalPrelude c l fun c1 fieldNum wireType r1 =>
    if fieldNum = 1 then
      if wireType ≠ 0 then .done (.error .wrongWireType)
      else
        match decodeVarint r1 with
        | .error e => .done (.error e)
        | .ok (v, r2) =>
          .cont (c1 + (r1.length - r2.length)) { m with total := v % 2 ^ 32 } r2
    else if fieldNum = 2 then
      if wireType ≠ 2 then .done (.error .wrongWireType)
      else
        match lenDelim c1 r1 with
        | .error e => .done (.error e)
        | .ok (payload, c2, r2) => .cont c2 { m with hash := payload } r2
    else skipDefault c m l

/-- `CanonicalPartSetHeader.Unmarshal` merging into an existing value (the
generated method mutates its receiver). -/
def CanonicalPartSetHeader.UnmarshalInto (m : CanonicalPartSetHeader) (d : List Nat) :
    Except PErr CanonicalPartSetHeader :=
  runMsg pshStep 0 m d

/-- `CanonicalPartSetHeader.Unmarshal` on a zero receiver. -/
def CanonicalPartSetHeader.Unmarshal (d : List Nat) : Except PErr CanonicalPartSetHeader :=
  CanonicalPartSetHeader.UnmarshalInto ⟨0, []⟩ d

/-- One iteration of `CanonicalBlockID.Unmarshal`: field 1 bytes `hash`,
field 2 embedded `part_set_header` (unmarshalled into the current value),
default skip. -/
def blockIDStep (c : Nat) (m : CanonicalBlockID) (l : List Nat) :
    StepRes CanonicalBlockID :=
  unmarshalPrelude c l fun c1 fieldNum wireType r1 =>
    if fieldNum = 1 then
      if wireType ≠ 2 then .done (.error .wrongWireType)
      else
        match lenDelim c1 r1 with
        | .error e => .done (.error e)
        | .ok (payload, c2, r2) => .cont c2 { m with hash := payload } r2
    else if fieldNum = 2 then
      if wireType ≠ 2 then .done (.error .wrongWireType)
      else
        match lenDelim c1 r1 with
        | .error e => .done (.error e)
        | .ok (payload, c2, r2) =>
          match m.partSetHeader.UnmarshalInto payload with
          | .error e => .done (.error e)
          | .ok sub => .cont c2 { m with partSetHeader := sub } r2
    else skipDefault c m l

/-- `CanonicalBlockID.Unmarshal` merging into an existing value. -/
def CanonicalBlockID.UnmarshalInto (m : CanonicalBlockID) (d : List Nat) :
    Except PErr CanonicalBlockID :=
  runMsg blockIDStep 0 m d

/-- `CanonicalBlockID.Unmarshal` on a zero receiver. -/
def CanonicalBlockID.Unmarshal (d : List Nat) : Except PErr CanonicalBlockID :=
  CanonicalBlockID.UnmarshalInto ⟨[], ⟨0, []⟩⟩ d

/-- Modelled from the spec: one iteration of the nested timestamp message
decode (varint `seconds` into `int64`, varint `nanos` into `int32`,
default skip). -/
def timestampStep (c : Nat) (m : Timestamp) (l : List Nat) : StepRes Timestamp :=
  unmarshalPrelude c l fun c1 fieldNum wireType r1 =>
    if fieldNum = 1 then
      if wireType ≠ 0 then .done (.error .wrongWireType)
      else
        match decodeVarint r1 with
        | .error e => .done (.error e)
        | .ok (v, r2) =>
          .cont (c1 + (r1.length - r2.length)) { m with seconds := toInt64 v } r2
    else if fieldNum = 2 then
      if wireType ≠ 0 then .done (.error .wrongWireType)
      else
        match decodeVarint r1 with
        | .error e => .done (.error e)
        | .ok (v, r2) =>
          .cont (c1 + (r1.length - r2.length)) { m with nanos := toInt32 v } r2
    else skipDefault c m l

/-- Modelled from the spec: gogoproto `StdTimeUnmarshal` decodes the nested
message into a fresh timestamp and rejects a non-normalized nanosecond
remainder (`InvalidTimestamp` unless `0 ≤ nanos < 1e9`). -/
def Timestamp.Unmarshal (d : List Nat) : Except PErr Timestamp :=
  match runMsg timestampStep 0 ⟨0, 0⟩ d with
  | .error e => .error e
  | .ok ts =>
    if ts.nanos < 0 ∨ 10 ^ 9 ≤ ts.nanos then .error .invalidTimestamp else .ok ts

/-- Modelled from the spec: one iteration of `VoteExtensionToSign.Unmarshal`
(field 1 bytes, default skip). -/
def voteExtStep (c : Nat) (m : VoteExtensionToSign) (l : List Nat) :
    StepRes VoteExtensionToSign :=
  unmarshalPrelude c l fun c1 fieldNum wireType r1 =>
    if fieldNum = 1 then
      if wireType ≠ 2 then .done (.error .wrongWireType)
      else
        match lenDelim c1 r1 with
        | .error e => .done (.error e)
        | .ok (payload, c2, r2) => .cont c2 { m with ext := payload } r2
    else skipDefault c m l

/-- Modelled from the spec: `VoteExtensionToSign.Unmarshal` merging into an
existing value. -/
def VoteExtensionToSign.UnmarshalInto (m : VoteExtensionToSign) (d : List Nat) :
    Except PErr VoteExtensionToSign :=
  runMsg voteExtStep 0 m d

/-- One iteration of `CanonicalProposal.Unmarshal`. -/
def proposalStep (c : Nat) (m : CanonicalProposal) (l : List Nat) :
    StepRes CanonicalProposal :=
  unmarshalPrelude c l fun c1 fieldNum wireType r1 =>
    if fieldNum = 1 then
      if wireType ≠ 0 then .done (.error .wrongWireType)
      else
        match decodeVarint r1 with
        | .error e => .done (.error e)
        | .ok (v, r2) =>
          .cont (c1 + (r1.length - r2.length)) { m with type := toInt32 v } r2
    else if fieldNum = 2 then
      if wireType ≠ 1 then .done (.error .wrongWireType)
      else if r1.length < 8 then .done (.error .truncated)
      else .cont (c1 + 8) { m with height := toInt64 (uint64LE r1) } (r1.drop 8)
    else if fieldNum = 3 then
      if wireType ≠ 1 then .done (.error .wrongWireType)
      else if r1.length < 8 then .done (.error .truncated)
      else .cont (c1 + 8) { m with round := toInt64 (uint64LE r1) } (r1.drop 8)
    else if fieldNum = 4 then
      if wireType ≠ 0 then .done (.error .wrongWireType)
      else
        match decodeVarint r1 with
        | .error e => .done (.error e)
        | .ok (v, r2) =>
          .cont (c1 + (r1.length - r2.length)) { m with polRound := toInt64 v } r2
    else if fieldNum = 5 then
      if wireType ≠ 2 then .done (.error .wrongWireType)
      else
        match lenDelim c1 r1 with
        | .error e => .done (.error e)
        | .ok (payload, c2, r2) =>
          match (m.blockID.getD ⟨[], ⟨0, []⟩⟩).UnmarshalInto payload with
          | .error e => .done (.error e)
          | .ok sub => .cont c2 { m with blockID := some sub } r2
    else if fieldNum = 6 then
      if wireType ≠ 2 then .done (.error .wrongWireType)
      else
        match lenDelim c1 r1 with
        | .error e => .done (.error e)
        | .ok (payload, c2, r2) =>
          match Timestamp.Unmarshal payload with
          | .error e => .done (.error e)
          | .ok ts => .cont c2 { m with timestamp := ts } r2
    else if fieldNum = 7 then
      if wireType ≠ 2 then .done (.error .wrongWireType)
      else
        match lenDelim c1 r1 with
        | .error e => .done (.error e)
        | .ok (payload, c2, r2) => .cont c2 { m with chainID := payload } r2
    else skipDefault c m l

/-- `CanonicalProposal.Unmarshal` merging into an existing value. -/
def CanonicalProposal.UnmarshalInto (m : CanonicalProposal) (d : List Nat) :
    Except PErr CanonicalProposal :=
  runMsg proposalStep 0 m d

/-- `CanonicalProposal.Unmarshal` on a zero receiver. -/
def CanonicalProposal.Unmarshal (d : List Nat) : Except PErr CanonicalProposal :=
  CanonicalProposal.UnmarshalInto ⟨0, 0, 0, 0, none, ⟨0, 0⟩, []⟩ d

/-- One iteration of `CanonicalVote.Unmarshal`. -/
def voteStep (c : Nat) (m : CanonicalVote) (l : List Nat) : StepRes CanonicalVote :=
  unmarshalPrelude c l fun c1 fieldNum wireType r1 =>
    if fieldNum = 1 then
      if wireType ≠ 0 then .done (.error .wrongWireType)
      else
        match decodeVarint r1 with
        | .error e => .done (.error e)
        | .ok (v, r2) =>
          .cont (c1 + (r1.length - r2.length)) { m with type := toInt32 v } r2
    else if fieldNum = 2 then
      if wireType ≠ 1 then .done (.error .wrongWireType)
      else if r1.length < 8 then .done (.error .truncated)
      else .cont (c1 + 8) { m with height := toInt64 (uint64LE r1) } (r1.drop 8)
    else if fieldNum = 3 then
      if wireType ≠ 1 then .done (.error .wrongWireType)
      else if r1.length < 8 then .done (.error .truncated)
      else .cont (c1 + 8) { m with round := toInt64 (uint64LE r1) } (r1.drop 8)
    else if fieldNum = 4 then
      if wireType ≠ 2 then .done (.error .wrongWireType)
      else
        match lenDelim c1 r1 with
        | .error e => .done (.error e)
        | .ok (payload, c2, r2) =>
          match (m.blockID.getD ⟨[], ⟨0, []⟩⟩).UnmarshalInto payload with
          | .error e => .done (.error e)
          | .ok sub => .cont c2 { m with blockID := some sub } r2
    else if fieldNum = 5 then
      if wireType ≠ 2 then .done (.error .wrongWireType)
      else
        match lenDelim c1 r1 with
        | .error e => .done (.error e)
        | .ok (payload, c2, r2) =>
          match Timestamp.Unmarshal payload with
          | .error e => .done (.error e)
          | .ok ts => .cont c2 { m with timestamp := ts } r2
    else if fieldNum = 6 then
      if wireType ≠ 2 then .done (.error .wrongWireType)
      else
        match lenDelim c1 r1 with
        | .error e => .done (.error e)
        | .ok (payload, c2, r2) => .cont c2 { m with chainID := payload } r2
    else if fieldNum = 7 then
      if wireType ≠ 2 then .done (.error .wrongWireType)
      else
        match lenDelim c1 r1 with
        | .error e => .done (.error e)
        | .ok (payload, c2, r2) =>
          match (m.voteExtension.getD ⟨[]⟩).UnmarshalInto payload with
          | .error e => .done (.error e)
          | .ok sub => .cont c2 { m with voteExtension := some sub } r2
    else skipDefault c m l

/-- `CanonicalVote.Unmarshal` merging into an existing value. -/
def CanonicalVote.UnmarshalInto (m : CanonicalVote) (d : List Nat) :
    Except PErr CanonicalVote :=
  runMsg voteStep 0 m d

/-- `CanonicalVote.Unmarshal` on a zero receiver. -/
def CanonicalVote.Unmarshal (d : List Nat) : Except PErr CanonicalVote :=
  CanonicalVote.UnmarshalInto ⟨0, 0, 0, none, ⟨0, 0⟩, [], none⟩ d

/-! ## Basic facts about the integer codecs -/

theorem encVarintAux_norm : ∀ f v, v ≤ f → encVarintAux f v = encVarint v := by
  intro f
  induction f using Nat.strong_induction_on with
  | _ f ih =>
    intro v hv
    match f, v with
    | 0, v =>
      interval_cases v
      rfl
    | f + 1, v =>
      by_cases h : v < 128
      · cases v with
        | zero => rfl
        | succ n =>
          show encVarintAux (f + 1) (n + 1) = encVarintAux (n + 1) (n + 1)
          simp only [encVarintAux, if_pos h]
      · have hv1 : 1 ≤ v := by omega
        obtain ⟨v', rfl⟩ : ∃ v', v = v' + 1 := ⟨v - 1, by omega⟩
        show encVarintAux (f + 1) (v' + 1) = encVarintAux (v' + 1) (v' + 1)
        simp only [encVarintAux, if_neg h]
        have hd : (v' + 1) / 128 < v' + 1 := Nat.div_lt_self (by omega) (by omega)
        rw [ih f (by omega) _ (by omega), ih v' (by omega) _ (by omega)]

/-- The natural recurrence of `encVarint`. -/
theorem encVarint_eq (v : Nat) :
    encVarint v = if v < 128 then [v] else (v % 128 + 128) :: encVarint (v / 128) := by
  by_cases h : v < 128
  · rw [if_pos h]
    cases v with
    | zero => rfl
    | succ n => show encVarintAux (n + 1) (n + 1) = _; simp only [encVarintAux, if_pos h]
  · rw [if_neg h]
    obtain ⟨v', rfl⟩ : ∃ v', v = v' + 1 := ⟨v - 1, by omega⟩
    show encVarintAux (v' + 1) (v' + 1) = _
    simp only [encVarintAux, if_neg h]
    rw [encVarintAux_norm v' ((v' + 1) / 128) (by omega)]

theorem encVarint_ne_nil (v : Nat) : encVarint v ≠ [] := by
  rw [encVarint_eq]
  split <;> simp

theorem encVarint_byte (v : Nat) : ∀ b ∈ encVarint v, b < 256 := by
  induction v using Nat.strong_induction_on with
  | _ v ih =>
    rw [encVarint_eq]
    by_cases h : v < 128
    · simp only [if_pos h, List.mem_singleton]
      omega
    · simp only [if_neg h, List.mem_cons]
      rintro b (rfl | hb)
      · omega
      · exact ih (v / 128) (Nat.div_lt_self (by omega) (by omega)) b hb

/-- Disjoint `or` is addition: the bits of `a` lie below position `n`. -/
theorem lor_mul_pow_eq_add {a : Nat} (b n : Nat) (h : a < 2 ^ n) :
    a ||| b * 2 ^ n = a + b * 2 ^ n := by
  apply Nat.eq_of_testBit_eq
  intro i
  rw [Nat.testBit_lor, ← Nat.shiftLeft_eq, Nat.testBit_shiftLeft,
    Nat.add_comm a (b <<< n), Nat.shiftLeft_eq, ← Nat.mul_comm (2 ^ n) b,
    Nat.testBit_mul_pow_two_add b h i]
  by_cases hi : i < n
  · have hni : ¬ i ≥ n := by omega
    simp [hi, hni]
  · have hni : i ≥ n := by omega
    have hf : a.testBit i = false :=
      Nat.testBit_lt_two_pow (lt_of_lt_of_le h (Nat.pow_le_pow_right (by omega) hni))
    simp [hi, hni, hf]

/-- `v ||| 1` in arithmetic form: it sets the lowest bit. -/
theorem lor_one_eq (v : Nat) : v ||| 1 = 1 + v / 2 * 2 := by
  apply Nat.eq_of_testBit_eq
  intro i
  rw [Nat.testBit_lor, Nat.testBit_to_div_mod, Nat.testBit_to_div_mod,
    Nat.testBit_to_div_mod]
  cases i with
  | zero => simp
  | succ j =>
    have hp : 2 ^ (j + 1) = 2 * 2 ^ j := by ring
    have hv : v / 2 ^ (j + 1) = v / 2 / 2 ^ j := by
      rw [Nat.div_div_eq_div_mul, hp, Nat.mul_comm]
    have hw : (1 + v / 2 * 2) / 2 ^ (j + 1) = v / 2 / 2 ^ j := by
      have h2 : (1 + v / 2 * 2) / 2 = v / 2 := by omega
      rw [hp, ← Nat.div_div_eq_div_mul, h2]
    have h1 : (1 : Nat) / 2 ^ (j + 1) = 0 := by
      apply Nat.div_eq_of_lt
      have : 2 ^ (j + 1) ≥ 2 := by
        calc 2 ^ (j + 1) ≥ 2 ^ 1 := Nat.pow_le_pow_right (by omega) (by omega)
          _ = 2 := by norm_num
      omega
    rw [hv, hw, h1]
    simp


/-- The varint byte width claimed by `sovCanonical` is the width `encVarint`
actually produces. -/
theorem encVarint_length (v : Nat) : (encVarint v).length = sovCanonical v := by
  induction v using Nat.strong_induction_on with
  | _ v ih =>
    rw [encVarint_eq, sovCanonical]
    by_cases h : v < 128
    · rw [if_pos h, List.length_singleton]
      have hx : v ||| 1 = 1 + v / 2 * 2 := lor_one_eq v
      have h7 : Nat.size (v ||| 1) ≤ 7 := Nat.size_le.mpr (by rw [hx]; norm_num; omega)
      have h0 : 0 < Nat.size (v ||| 1) := Nat.size_pos.mpr (by rw [hx]; omega)
      omega
    · rw [if_neg h, List.length_cons,
        ih (v / 128) (Nat.div_lt_self (by omega) (by omega)), sovCanonical]
      set w := v / 128 with hw
      set y := w ||| 1 with hy
      set k := Nat.size y with hk
      have hy' : y = 1 + w / 2 * 2 := lor_one_eq w
      have hx' : v ||| 1 = 1 + v / 2 * 2 := lor_one_eq v
      have hylt : y < 2 ^ k := Nat.lt_size_self y
      have hk1 : 0 < k := Nat.size_pos.mpr (by omega)
      have hyge : 2 ^ (k - 1) ≤ y := Nat.lt_size.mp (by omega)
      have hup : v ||| 1 < 2 ^ (k + 7) := by
        have hpk : (2 : Nat) ^ (k + 7) = 128 * 2 ^ k := by ring
        have hwv : w = v / 128 := hw
        omega
      have hlo : 2 ^ (k + 6) ≤ v ||| 1 := by
        rcases Nat.lt_or_ge k 2 with hks | hkb
        · have hk1' : k = 1 := by omega
          have he : (2 : Nat) ^ (k + 6) = 128 := by rw [hk1']; norm_num
          omega
        · have e1 : (2 : Nat) ^ (k - 1) = 2 ^ (k - 2) * 2 := by
            have he : k - 1 = (k - 2) + 1 := by omega
            rw [he, pow_succ]
          have e2 : (2 : Nat) ^ (k + 6) = 2 ^ (k - 2) * 256 := by
            have he : k + 6 = (k - 2) + 8 := by omega
            rw [he, pow_add]
            norm_num
          have hwv : w = v / 128 := hw
          omega
      have hsize : Nat.size (v ||| 1) = k + 7 := by
        have hle : Nat.size (v ||| 1) ≤ k + 7 := Nat.size_le.mpr hup
        have hge : k + 6 < Nat.size (v ||| 1) := Nat.lt_size.mpr hlo
        omega
      rw [hsize]
      omega

theorem encVarint_length_pos (v : Nat) : 0 < (encVarint v).length := by
  rw [encVarint_eq]
  split <;> simp

theorem sovCanonical_le_ten {v : Nat} (h : v < 2 ^ 64) : sovCanonical v ≤ 10 := by
  have hx : v ||| 1 = 1 + v / 2 * 2 := lor_one_eq v
  have h64 : Nat.size (v ||| 1) ≤ 64 := Nat.size_le.mpr (by rw [hx]; norm_num; omega)
  rw [sovCanonical]
  omega

/-- The varint decoder consumes at least one byte on success. -/
theorem decodeVarintAux_length :
    ∀ l shift acc v r, decodeVarintAux shift acc l = .ok (v, r) → r.length < l.length := by
  intro l
  induction l with
  | nil =>
    intro shift acc v r h
    simp only [decodeVarintAux] at h
    split at h <;> simp_all
  | cons b bs ih =>
    intro shift acc v r h
    simp only [decodeVarintAux] at h
    split at h
    · simp_all
    · split at h
      · simp only [Except.ok.injEq, Prod.mk.injEq] at h
        simp [← h.2]
      · have := ih _ _ _ _ h
        simp only [List.length_cons]
        omega

/-- Correctness of the inlined varint read against `encVarint`, at any
accumulator state whose set bits lie below the current shift position. -/
theorem decodeVarintAux_enc (v : Nat) :
    ∀ shift acc rest, shift ≤ 63 → acc < 2 ^ shift → v < 2 ^ (64 - shift) →
      decodeVarintAux shift acc (encVarint v ++ rest) = .ok (acc + v * 2 ^ shift, rest) := by
  induction v using Nat.strong_induction_on with
  | _ v ih =>
    intro shift acc rest hs hacc hv
    rw [encVarint_eq]
    by_cases h : v < 128
    · simp only [if_pos h, List.cons_append, List.nil_append]
      have hmod : v % 128 = v := Nat.mod_eq_of_lt h
      have hlt64 : v * 2 ^ shift < 2 ^ 64 := by
        calc v * 2 ^ shift < 2 ^ (64 - shift) * 2 ^ shift :=
              mul_lt_mul_of_pos_right hv (Nat.pos_pow_of_pos shift (by omega))
          _ = 2 ^ 64 := by rw [← pow_add]; congr 1; omega
      simp only [decodeVarintAux, if_neg (by omega : ¬ 64 ≤ shift), if_pos h, hmod,
        Nat.mod_eq_of_lt hlt64, lor_mul_pow_eq_add v shift hacc]
    · simp only [if_neg h, List.cons_append]
      have hb : ¬ v % 128 + 128 < 128 := by omega
      have hsh : shift ≤ 56 := by
        by_contra hc
        have h7 : 64 - shift ≤ 7 := by omega
        have : (2 : Nat) ^ (64 - shift) ≤ 2 ^ 7 := Nat.pow_le_pow_right (by omega) h7
        omega
      have hmod : (v % 128 + 128) % 128 = v % 128 := by omega
      have hlt64 : v % 128 * 2 ^ shift < 2 ^ 64 := by
        calc v % 128 * 2 ^ shift < 128 * 2 ^ shift :=
              mul_lt_mul_of_pos_right (by omega) (Nat.pos_pow_of_pos shift (by omega))
          _ = 2 ^ (shift + 7) := by ring
          _ ≤ 2 ^ 64 := Nat.pow_le_pow_right (by omega) (by omega)
      have hacc2 : acc + v % 128 * 2 ^ shift < 2 ^ (shift + 7) := by
        have h1 : acc + v % 128 * 2 ^ shift < 2 ^ shift + 127 * 2 ^ shift := by
          have : v % 128 * 2 ^ shift ≤ 127 * 2 ^ shift :=
            Nat.mul_le_mul_right _ (by omega)
          omega
        have h2 : (2 : Nat) ^ shift + 127 * 2 ^ shift = 2 ^ (shift + 7) := by ring
        omega
      have hvd : v / 128 < 2 ^ (64 - (shift + 7)) := by
        rw [Nat.div_lt_iff_lt_mul (by omega : 0 < 128)]
        calc v < 2 ^ (64 - shift) := hv
          _ = 2 ^ (64 - (shift + 7)) * 128 := by
              rw [show (128 : Nat) = 2 ^ 7 from rfl, ← pow_add]
              congr 1
              omega
      simp only [decodeVarintAux, if_neg (by omega : ¬ 64 ≤ shift), if_neg hb, hmod,
        Nat.mod_eq_of_lt hlt64, lor_mul_pow_eq_add (v % 128) shift hacc]
      rw [ih (v / 128) (Nat.div_lt_self (by omega) (by omega)) (shift + 7)
        (acc + v % 128 * 2 ^ shift) rest (by omega) hacc2 hvd]
      congr 2
      have he : (2 : Nat) ^ (shift + 7) = 2 ^ 7 * 2 ^ shift := by ring
      rw [he]
      have hr : acc + v % 128 * 2 ^ shift + v / 128 * (2 ^ 7 * 2 ^ shift)
          = acc + (v % 128 + v / 128 * 2 ^ 7) * 2 ^ shift := by ring
      rw [hr]
      congr 2
      omega

/-- The varint decoder undoes `encVarint` for 64-bit values. -/
theorem decodeVarint_enc {v : Nat} (h : v < 2 ^ 64) (rest : List Nat) :
    decodeVarint (encVarint v ++ rest) = .ok (v, rest) := by
  have := decodeVarintAux_enc v 0 0 rest (by omega) (by norm_num) (by simpa using h)
  simpa using this

theorem intToU64_lt (x : Int) : intToU64 x < 2 ^ 64 := by
  unfold intToU64
  omega

theorem toInt64_intToU64 {x : Int} (h1 : -2 ^ 63 ≤ x) (h2 : x < 2 ^ 63) :
    toInt64 (intToU64 x) = x := by
  unfold toInt64 intToU64
  split <;> omega

theorem toInt32_intToU64 {x : Int} (h1 : -2 ^ 31 ≤ x) (h2 : x < 2 ^ 31) :
    toInt32 (intToU64 x) = x := by
  unfold toInt32 intToU64
  split <;> omega

theorem intToU64_eq_zero {x : Int} (h1 : -2 ^ 63 ≤ x) (h2 : x < 2 ^ 63) :
    intToU64 x = 0 ↔ x = 0 := by
  unfold intToU64
  omega

theorem uint64LE_putUint64LE (v : Nat) (rest : List Nat) :
    uint64LE (putUint64LE v ++ rest) = v % 2 ^ 64 := by
  simp only [putUint64LE, List.cons_append, List.nil_append, uint64LE]
  omega

theorem putUint64LE_length (v : Nat) : (putUint64LE v).length = 8 := rfl

theorem putUint64LE_drop (v : Nat) (rest : List Nat) :
    (putUint64LE v ++ rest).drop 8 = rest := rfl

/-! ## Generic decoder-loop lemmas -/

/-- A step function that consumes at least one byte whenever it continues. -/
def Consumes (step : Nat → α → List Nat → StepRes α) : Prop :=
  ∀ c m l c2 m2 rest, step c m l = .cont c2 m2 rest → rest.length < l.length

/-- With sufficient fuel the loop's value does not depend on the fuel. -/
theorem msgLoop_fuel {α : Type} {step : Nat → α → List Nat → StepRes α}
    (hstep : Consumes step) :
    ∀ n l f g c m, l.length ≤ n → l.length < f → l.length < g →
      msgLoop step f c m l = msgLoop step g c m l := by
  intro n
  induction n with
  | zero =>
    intro l f g c m h0 hf hg
    have hl : l = [] := List.length_eq_zero.mp (by omega)
    subst hl
    obtain ⟨f2, rfl⟩ : ∃ f2, f = f2 + 1 := ⟨f - 1, by omega⟩
    obtain ⟨g2, rfl⟩ : ∃ g2, g = g2 + 1 := ⟨g - 1, by omega⟩
    rfl
  | succ n ih =>
    intro l f g c m h0 hf hg
    obtain ⟨f2, rfl⟩ : ∃ f2, f = f2 + 1 := ⟨f - 1, by omega⟩
    obtain ⟨g2, rfl⟩ : ∃ g2, g = g2 + 1 := ⟨g - 1, by omega⟩
    cases l with
    | nil => rfl
    | cons b bs =>
      simp only [msgLoop]
      cases hs : step c m (b :: bs) with
      | done r => rfl
      | cont c2 m2 rest =>
        have hlen := hstep _ _ _ _ _ _ hs
        simp only [List.length_cons] at hlen h0 hf hg
        exact ih rest f2 g2 c2 m2 (by omega) (by omega) (by omega)

theorem runMsg_nil {α : Type} (step : Nat → α → List Nat → StepRes α) (c : Nat) (m : α) :
    runMsg step c m [] = .ok m := rfl

theorem runMsg_done {α : Type} {step : Nat → α → List Nat → StepRes α}
    {c : Nat} {m : α} {b : Nat} {bs : List Nat} {r : Except PErr α}
    (h : step c m (b :: bs) = .done r) : runMsg step c m (b :: bs) = r := by
  show msgLoop step ((b :: bs).length + 1) c m (b :: bs) = r
  simp only [List.length_cons, msgLoop, h]

theorem runMsg_cont {α : Type} {step : Nat → α → List Nat → StepRes α}
    (hstep : Consumes step) {c : Nat} {m : α} {b : Nat} {bs : List Nat}
    {c2 : Nat} {m2 : α} {rest : List Nat}
    (h : step c m (b :: bs) = .cont c2 m2 rest) :
    runMsg step c m (b :: bs) = runMsg step c2 m2 rest := by
  show msgLoop step ((b :: bs).length + 1) c m (b :: bs) = _
  simp only [List.length_cons, msgLoop, h]
  have hlen := hstep _ _ _ _ _ _ h
  simp only [List.length_cons] at hlen
  exact msgLoop_fuel hstep rest.length rest _ _ c2 m2 le_rfl (by omega) (by omega)

/-! Consumption facts for the step functions. -/

theorem decodeVarint_length {l : List Nat} {v : Nat} {r : List Nat}
    (h : decodeVarint l = .ok (v, r)) : r.length < l.length :=
  decodeVarintAux_length l 0 0 v r h

theorem lenDelim_length {c1 : Nat} {r1 p : List Nat} {c2 : Nat} {r2 : List Nat}
    (h : lenDelim c1 r1 = .ok (p, c2, r2)) : r2.length < r1.length := by
  unfold lenDelim at h
  cases hd : decodeVarint r1 with
  | error e => rw [hd] at h; exact absurd h (by simp)
  | ok pr =>
    obtain ⟨v, rd⟩ := pr
    rw [hd] at h
    simp only at h
    split at h
    · exact absurd h (by simp)
    · split at h
      · exact absurd h (by simp)
      · split at h
        · exact absurd h (by simp)
        · simp only [Except.ok.injEq, Prod.mk.injEq] at h
          have hrd := decodeVarint_length hd
          have : r2 = rd.drop v := by rw [← h.2.2]
          rw [this, List.length_drop]
          omega

theorem skipWire_ok {wt c1 depth : Nat} {r1 : List Nat} {c2 d2 : Nat} {r2 : List Nat}
    (h : skipWire wt c1 depth r1 = .ok (c2, d2, r2)) :
    c1 ≤ c2 ∧ r2.length ≤ r1.length := by
  unfold skipWire at h
  split at h
  · -- wire type 0: skip one varint
    split at h
    · exact absurd h (by simp)
    · rename_i v r2x heq
      simp only [Except.ok.injEq, Prod.mk.injEq] at h
      obtain ⟨h1, h2, h3⟩ := h
      have := decodeVarint_length heq
      subst h3
      omega
  · split at h
    · -- wire type 1: skip 8 bytes
      simp only [Except.ok.injEq, Prod.mk.injEq] at h
      obtain ⟨h1, h2, h3⟩ := h
      subst h3
      simp only [List.length_drop]
      omega
    · split at h
      · -- wire type 2: skip a declared length
        split at h
        · exact absurd h (by simp)
        · rename_i v r2x heq
          split at h
          · exact absurd h (by simp)
          · simp only [Except.ok.injEq, Prod.mk.injEq] at h
            obtain ⟨h1, h2, h3⟩ := h
            have := decodeVarint_length heq
            subst h3
            simp only [List.length_drop]
            omega
      · split at h
        · -- wire type 3: group start
          simp only [Except.ok.injEq, Prod.mk.injEq] at h
          obtain ⟨h1, h2, h3⟩ := h
          subst h3
          omega
        · split at h
          · -- wire type 4: group end
            split at h
            · exact absurd h (by simp)
            · simp only [Except.ok.injEq, Prod.mk.injEq] at h
              obtain ⟨h1, h2, h3⟩ := h
              subst h3
              omega
          · split at h
            · -- wire type 5: skip 4 bytes
              simp only [Except.ok.injEq, Prod.mk.injEq] at h
              obtain ⟨h1, h2, h3⟩ := h
              subst h3
              simp only [List.length_drop]
              omega
            · exact absurd h (by simp)

theorem skipStep_done_ok {c depth : Nat} {l : List Nat} {n : Nat}
    (h : skipStep c depth l = .done (.ok n)) : c < n := by
  unfold skipStep at h
  split at h
  · simp at h
  · rename_i wire r1 heq
    split at h
    · simp at h
    · rename_i c2 d2 r2 hw
      have hb := skipWire_ok hw
      have hl := decodeVarint_length heq
      split at h
      · simp at h
      · split at h
        · simp only [StepRes.done.injEq, Except.ok.injEq] at h
          omega
        · simp at h

theorem skipStep_cont {c depth : Nat} {l : List Nat} {c2 d2 : Nat} {rest : List Nat}
    (h : skipStep c depth l = .cont c2 d2 rest) :
    c < c2 ∧ rest.length < l.length := by
  unfold skipStep at h
  split at h
  · simp at h
  · rename_i wire r1 heq
    split at h
    · simp at h
    · rename_i c2x d2x r2x hw
      have hb := skipWire_ok hw
      have hl := decodeVarint_length heq
      split at h
      · simp at h
      · split at h
        · simp at h
        · simp only [StepRes.cont.injEq] at h
          obtain ⟨h1, h2, h3⟩ := h
          subst h3
          omega

theorem skipLoop_lt :
    ∀ f c depth l n, skipLoop f c depth l = .ok n → c < n := by
  intro f
  induction f with
  | zero => intro c depth l n h; simp [skipLoop] at h
  | succ f ih =>
    intro c depth l n h
    cases l with
    | nil => simp [skipLoop] at h
    | cons b bs =>
      simp only [skipLoop] at h
      split at h
      · rename_i r hs
        cases r with
        | error e => simp at h
        | ok k =>
          simp only [Except.ok.injEq] at h
          subst h
          exact skipStep_done_ok hs
      · rename_i c2 d2 rest hs
        have := (skipStep_cont hs).1
        have := ih c2 d2 rest n h
        omega

/-- `skipCanonical` consumes at least the tag byte. -/
theorem skipCanonical_pos {l : List Nat} {n : Nat} (h : skipCanonical l = .ok n) :
    1 ≤ n := by
  have := skipLoop_lt (l.length + 1) 0 0 l n h
  omega

theorem skipDefault_cont {α : Type} {c : Nat} {m : α} {l : List Nat}
    {c2 : Nat} {m2 : α} {rest : List Nat}
    (h : skipDefault c m l = .cont c2 m2 rest) : rest.length < l.length := by
  unfold skipDefault at h
  split at h
  · simp at h
  · rename_i skippy heq
    have hpos := skipCanonical_pos heq
    split at h
    · simp at h
    · split at h
      · simp at h
      · rename_i hinv hle
        simp only [StepRes.cont.injEq] at h
        obtain ⟨h1, h2, h3⟩ := h
        subst h3
        simp only [List.length_drop]
        omega

/-- `unmarshalPrelude` continues only through its body, after a successful
tag read. -/
theorem unmarshalPrelude_cont_ex {α : Type} {c : Nat} {l : List Nat}
    {body : Nat → Nat → Nat → List Nat → StepRes α}
    {c2 : Nat} {m2 : α} {rest : List Nat}
    (h : unmarshalPrelude c l body = .cont c2 m2 rest) :
    ∃ wire r1, decodeVarint l = .ok (wire, r1) ∧ r1.length < l.length ∧
      body (c + (l.length - r1.length)) (wire / 8 % 2 ^ 32) (wire % 8) r1
        = .cont c2 m2 rest := by
  unfold unmarshalPrelude at h
  split at h
  · simp at h
  · rename_i wire r1 heq
    simp only [] at h
    split at h
    · simp at h
    · split at h
      · simp at h
      · exact ⟨wire, r1, heq, decodeVarint_length heq, h⟩

theorem pshStep_consumes : Consumes pshStep := by
  intro c m l c2 m2 rest h
  unfold pshStep at h
  obtain ⟨wire, r1, hd, hlen, hbody⟩ := unmarshalPrelude_cont_ex h
  split at hbody
  · -- field 1: varint total
    split at hbody
    · simp at hbody
    · split at hbody
      · simp at hbody
      · rename_i v r2 heq
        simp only [StepRes.cont.injEq] at hbody
        obtain ⟨h1, h2, h3⟩ := hbody
        subst h3
        have := decodeVarint_length heq
        omega
  · split at hbody
    · -- field 2: hash bytes
      split at hbody
      · simp at hbody
      · split at hbody
        · simp at hbody
        · rename_i p cx r2 heq
          simp only [StepRes.cont.injEq] at hbody
          obtain ⟨h1, h2, h3⟩ := hbody
          subst h3
          have := lenDelim_length heq
          omega
    · -- default: skip
      have := skipDefault_cont hbody
      omega

theorem blockIDStep_consumes : Consumes blockIDStep := by
  intro c m l c2 m2 rest h
  unfold blockIDStep at h
  obtain ⟨wire, r1, hd, hlen, hbody⟩ := unmarshalPrelude_cont_ex h
  split at hbody
  · split at hbody
    · simp at hbody
    · split at hbody
      · simp at hbody
      · rename_i p cx r2 heq
        simp only [StepRes.cont.injEq] at hbody
        obtain ⟨h1, h2, h3⟩ := hbody
        subst h3
        have := lenDelim_length heq
        omega
  · split at hbody
    · split at hbody
      · simp at hbody
      · split at hbody
        · simp at hbody
        · rename_i p cx r2 heq
          split at hbody
          · simp at hbody
          · simp only [StepRes.cont.injEq] at hbody
            obtain ⟨h1, h2, h3⟩ := hbody
            subst h3
            have := lenDelim_length heq
            omega
    · have := skipDefault_cont hbody
      omega

theorem timestampStep_consumes : Consumes timestampStep := by
  intro c m l c2 m2 rest h
  unfold timestampStep at h
  obtain ⟨wire, r1, hd, hlen, hbody⟩ := unmarshalPrelude_cont_ex h
  split at hbody
  · split at hbody
    · simp at hbody
    · split at hbody
      · simp at hbody
      · rename_i v r2 heq
        simp only [StepRes.cont.injEq] at hbody
        obtain ⟨h1, h2, h3⟩ := hbody
        subst h3
        have := decodeVarint_length heq
        omega
  · split at hbody
    · split at hbody
      · simp at hbody
      · split at hbody
        · simp at hbody
        · rename_i v r2 heq
          simp only [StepRes.cont.injEq] at hbody
          obtain ⟨h1, h2, h3⟩ := hbody
          subst h3
          have := decodeVarint_length heq
          omega
    · have := skipDefault_cont hbody
      omega

theorem voteExtStep_consumes : Consumes voteExtStep := by
  intro c m l c2 m2 rest h
  unfold voteExtStep at h
  obtain ⟨wire, r1, hd, hlen, hbody⟩ := unmarshalPrelude_cont_ex h
  split at hbody
  · split at hbody
    · simp at hbody
    · split at hbody
      · simp at hbody
      · rename_i p cx r2 heq
        simp only [StepRes.cont.injEq] at hbody
        obtain ⟨h1, h2, h3⟩ := hbody
        subst h3
        have := lenDelim_length heq
        omega
  · have := skipDefault_cont hbody
    omega

theorem proposalStep_consumes : Consumes proposalStep := by
  intro c m l c2 m2 rest h
  unfold proposalStep at h
  obtain ⟨wire, r1, hd, hlen, hbody⟩ := unmarshalPrelude_cont_ex h
  split at hbody
  · -- field 1: varint type
    split at hbody
    · simp at hbody
    · split at hbody
      · simp at hbody
      · rename_i v r2 heq
        simp only [StepRes.cont.injEq] at hbody
        obtain ⟨h1, h2, h3⟩ := hbody
        subst h3
        have := decodeVarint_length heq
        omega
  · split at hbody
    · -- field 2: fixed64 height
      split at hbody
      · simp at hbody
      · split at hbody
        · simp at hbody
        · simp only [StepRes.cont.injEq] at hbody
          obtain ⟨h1, h2, h3⟩ := hbody
          subst h3
          simp only [List.length_drop]
          omega
    · split at hbody
      · -- field 3: fixed64 round
        split at hbody
        · simp at hbody
        · split at hbody
          · simp at hbody
          · simp only [StepRes.cont.injEq] at hbody
            obtain ⟨h1, h2, h3⟩ := hbody
            subst h3
            simp only [List.length_drop]
            omega
      · split at hbody
        · -- field 4: varint pol_round
          split at hbody
          · simp at hbody
          · split at hbody
            · simp at hbody
            · rename_i v r2 heq
              simp only [StepRes.cont.injEq] at hbody
              obtain ⟨h1, h2, h3⟩ := hbody
              subst h3
              have := decodeVarint_length heq
              omega
        · split at hbody
          · -- field 5: block_id
            split at hbody
            · simp at hbody
            · split at hbody
              · simp at hbody
              · rename_i p cx r2 heq
                split at hbody
                · simp at hbody
                · simp only [StepRes.cont.injEq] at hbody
                  obtain ⟨h1, h2, h3⟩ := hbody
                  subst h3
                  have := lenDelim_length heq
                  omega
          · split at hbody
            · -- field 6: timestamp
              split at hbody
              · simp at hbody
              · split at hbody
                · simp at hbody
                · rename_i p cx r2 heq
                  split at hbody
                  · simp at hbody
                  · simp only [StepRes.cont.injEq] at hbody
                    obtain ⟨h1, h2, h3⟩ := hbody
                    subst h3
                    have := lenDelim_length heq
                    omega
            · split at hbody
              · -- field 7: chain_id
                split at hbody
                · simp at hbody
                · split at hbody
                  · simp at hbody
                  · rename_i p cx r2 heq
                    simp only [StepRes.cont.injEq] at hbody
                    obtain ⟨h1, h2, h3⟩ := hbody
                    subst h3
                    have := lenDelim_length heq
                    omega
              · have := skipDefault_cont hbody
                omega

theorem voteStep_consumes : Consumes voteStep := by
  intro c m l c2 m2 rest h
  unfold voteStep at h
  obtain ⟨wire, r1, hd, hlen, hbody⟩ := unmarshalPrelude_cont_ex h
  split at hbody
  · -- field 1: varint type
    split at hbody
    · simp at hbody
    · split at hbody
      · simp at hbody
      · rename_i v r2 heq
        simp only [StepRes.cont.injEq] at hbody
        obtain ⟨h1, h2, h3⟩ := hbody
        subst h3
        have := decodeVarint_length heq
        omega
  · split at hbody
    · -- field 2: fixed64 height
      split at hbody
      · simp at hbody
      · split at hbody
        · simp at hbody
        · simp only [StepRes.cont.injEq] at hbody
          obtain ⟨h1, h2, h3⟩ := hbody
          subst h3
          simp only [List.length_drop]
          omega
    · split at hbody
      · -- field 3: fixed64 round
        split at hbody
        · simp at hbody
        · split at hbody
          · simp at hbody
          · simp only [StepRes.cont.injEq] at hbody
            obtain ⟨h1, h2, h3⟩ := hbody
            subst h3
            simp only [List.length_drop]
            omega
      · split at hbody
        · -- field 4: block_id
          split at hbody
          · simp at hbody
          · split at hbody
            · simp at hbody
            · rename_i p cx r2 heq
              split at hbody
              · simp at hbody
              · simp only [StepRes.cont.injEq] at hbody
                obtain ⟨h1, h2, h3⟩ := hbody
                subst h3
                have := lenDelim_length heq
                omega
        · split at hbody
          · -- field 5: timestamp
            split at hbody
            · simp at hbody
            · split at hbody
              · simp at hbody
              · rename_i p cx r2 heq
                split at hbody
                · simp at hbody
                · simp only [StepRes.cont.injEq] at hbody
                  obtain ⟨h1, h2, h3⟩ := hbody
                  subst h3
                  have := lenDelim_length heq
                  omega
          · split at hbody
            · -- field 6: chain_id
              split at hbody
              · simp at hbody
              · split at hbody
                · simp at hbody
                · rename_i p cx r2 heq
                  simp only [StepRes.cont.injEq] at hbody
                  obtain ⟨h1, h2, h3⟩ := hbody
                  subst h3
                  have := lenDelim_length heq
                  omega
            · split at hbody
              · -- field 7: vote_extension
                split at hbody
                · simp at hbody
                · split at hbody
                  · simp at hbody
                  · rename_i p cx r2 heq
                    split at hbody
                    · simp at hbody
                    · simp only [StepRes.cont.injEq] at hbody
                      obtain ⟨h1, h2, h3⟩ := hbody
                      subst h3
                      have := lenDelim_length heq
                      omega
              · have := skipDefault_cont hbody
                omega

/-! ## Round-trip: per-field processing lemmas -/

theorem encVarint_length_le_ten {v : Nat} (h : v < 2 ^ 64) : (encVarint v).length ≤ 10 := by
  rw [encVarint_length]
  exact sovCanonical_le_ten h

/-- Decoding a one-byte tag. -/
theorem decodeVarint_tag {tag : Nat} (h : tag < 128) (tail : List Nat) :
    decodeVarint (tag :: tail) = .ok (tag, tail) := by
  have h8 : encVarint tag ++ tail = tag :: tail := by
    rw [encVarint_eq, if_pos h]
    rfl
  rw [← h8]
  exact decodeVarint_enc (by omega) _

theorem runPsh_total (c t : Nat) (hsh rest : List Nat) (ht : t < 2 ^ 32) :
    ∃ c2, c2 ≤ c + 11 ∧
      runMsg pshStep c ⟨0, hsh⟩ ((if t ≠ 0 then 0x8 :: encVarint t else []) ++ rest)
        = runMsg pshStep c2 ⟨t, hsh⟩ rest := by
  rcases Nat.eq_zero_or_pos t with rfl | htpos
  · exact ⟨c, by omega, by simp⟩
  · have hne : t ≠ 0 := by omega
    have henc : decodeVarint (encVarint t ++ rest) = .ok (t, rest) :=
      decodeVarint_enc (by omega) rest
    have htag : decodeVarint (0x8 :: (encVarint t ++ rest)) = .ok (8, encVarint t ++ rest) :=
      decodeVarint_tag (by norm_num) _
    have hstep : pshStep c ⟨0, hsh⟩ (0x8 :: (encVarint t ++ rest)) =
        .cont (c + 1 + (encVarint t).length) ⟨t, hsh⟩ rest := by
      simp [pshStep, unmarshalPrelude, htag, henc, Nat.mod_eq_of_lt ht]
      omega
    refine ⟨c + 1 + (encVarint t).length, ?_, ?_⟩
    · have hlen : (encVarint t).length ≤ 10 := encVarint_length_le_ten (by omega)
      omega
    · rw [if_pos hne, List.cons_append]
      exact runMsg_cont pshStep_consumes hstep

/-- The length-delimited prelude on a correctly length-prefixed payload. -/
theorem lenDelim_enc (c1 : Nat) (p tail : List Nat) (hp : p.length < 2 ^ 63)
    (hc : c1 + (encVarint p.length).length + p.length < 2 ^ 63) :
    lenDelim c1 (encVarint p.length ++ (p ++ tail)) =
      .ok (p, c1 + (encVarint p.length).length + p.length, tail) := by
  unfold lenDelim
  rw [decodeVarint_enc (by omega) _]
  have h1 : ¬ 2 ^ 63 ≤ p.length := by omega
  have h2 : c1 + ((encVarint p.length ++ (p ++ tail)).length - (p ++ tail).length)
      = c1 + (encVarint p.length).length := by
    simp [List.length_append]
  have h4 : ¬ (p ++ tail).length < p.length := by
    simp [List.length_append]
  simp only [h1, if_false, if_neg h1]
  rw [h2]
  rw [if_neg (by omega), if_neg h4, List.take_left, List.drop_left]

theorem runPsh_hash (c t : Nat) (hsh rest : List Nat) (hhs : hsh.length < 2 ^ 32)
    (hc : c < 2 ^ 62) :
    ∃ c2, c2 ≤ c + 11 + hsh.length ∧
      runMsg pshStep c ⟨t, []⟩
        ((if 0 < hsh.length then 0x12 :: (encVarint hsh.length ++ hsh) else []) ++ rest)
        = runMsg pshStep c2 ⟨t, hsh⟩ rest := by
  by_cases hnil : hsh = []
  · subst hnil
    exact ⟨c, by omega, by simp⟩
  · have hp : 0 < hsh.length := List.length_pos.mpr hnil
    have hlen : (encVarint hsh.length).length ≤ 10 := encVarint_length_le_ten (by omega)
    have hld : lenDelim (c + 1) (encVarint hsh.length ++ (hsh ++ rest)) =
        .ok (hsh, c + 1 + (encVarint hsh.length).length + hsh.length, rest) :=
      lenDelim_enc (c + 1) hsh rest (by omega) (by omega)
    have hstep : pshStep c ⟨t, []⟩ (0x12 :: (encVarint hsh.length ++ (hsh ++ rest))) =
        .cont (c + 1 + (encVarint hsh.length).length + hsh.length) ⟨t, hsh⟩ rest := by
      simp [pshStep, unmarshalPrelude, decodeVarint_tag (show (0x12 : Nat) < 128 by norm_num),
        hld]
    refine ⟨c + 1 + (encVarint hsh.length).length + hsh.length, by omega, ?_⟩
    rw [if_pos hp, List.cons_append, List.append_assoc]
    exact runMsg_cont pshStep_consumes hstep

/-- Round trip for `CanonicalPartSetHeader`. -/
theorem psh_roundtrip (m : CanonicalPartSetHeader) (h1 : m.total < 2 ^ 32)
    (h2 : m.hash.length < 2 ^ 32) :
    CanonicalPartSetHeader.Unmarshal m.Marshal = .ok m := by
  obtain ⟨t, hsh⟩ := m
  simp only [CanonicalPartSetHeader.Marshal] at *
  show runMsg pshStep 0 ⟨0, []⟩ _ = _
  obtain ⟨c2, hc2, he1⟩ := runPsh_total 0 t []
    ((if 0 < hsh.length then 0x12 :: (encVarint hsh.length ++ hsh) else []) ++ []) h1
  rw [show ((if 0 < hsh.length then 0x12 :: (encVarint hsh.length ++ hsh) else []) : List Nat)
      = (if 0 < hsh.length then 0x12 :: (encVarint hsh.length ++ hsh) else []) ++ [] by simp]
  rw [he1]
  obtain ⟨c3, hc3, he2⟩ := runPsh_hash c2 t hsh [] h2 (by omega)
  rw [he2]
  exact runMsg_nil pshStep c3 ⟨t, hsh⟩

theorem pshMarshal_le (m : CanonicalPartSetHeader) (h1 : m.total < 2 ^ 32)
    (h2 : m.hash.length < 2 ^ 32) : m.Marshal.length ≤ 22 + m.hash.length := by
  have e1 := encVarint_length_le_ten (show m.total < 2 ^ 64 by omega)
  have e2 := encVarint_length_le_ten (show m.hash.length < 2 ^ 64 by omega)
  simp only [CanonicalPartSetHeader.Marshal, List.length_append]
  split_ifs <;> simp [List.length_append] <;> omega

theorem runBid_hash (c : Nat) (hsh : List Nat) (psh : CanonicalPartSetHeader)
    (rest : List Nat) (hhs : hsh.length < 2 ^ 32) (hc : c < 2 ^ 62) :
    ∃ c2, c2 ≤ c + 11 + hsh.length ∧
      runMsg blockIDStep c ⟨[], psh⟩
        ((if 0 < hsh.length then 0xa :: (encVarint hsh.length ++ hsh) else []) ++ rest)
        = runMsg blockIDStep c2 ⟨hsh, psh⟩ rest := by
  by_cases hnil : hsh = []
  · subst hnil
    exact ⟨c, by omega, by simp⟩
  · have hp : 0 < hsh.length := List.length_pos.mpr hnil
    have hlen : (encVarint hsh.length).length ≤ 10 := encVarint_length_le_ten (by omega)
    have hld : lenDelim (c + 1) (encVarint hsh.length ++ (hsh ++ rest)) =
        .ok (hsh, c + 1 + (encVarint hsh.length).length + hsh.length, rest) :=
      lenDelim_enc (c + 1) hsh rest (by omega) (by omega)
    have hstep : blockIDStep c ⟨[], psh⟩ (0xa :: (encVarint hsh.length ++ (hsh ++ rest))) =
        .cont (c + 1 + (encVarint hsh.length).length + hsh.length) ⟨hsh, psh⟩ rest := by
      simp [blockIDStep, unmarshalPrelude, decodeVarint_tag (show (0xa : Nat) < 128 by norm_num),
        hld]
    refine ⟨c + 1 + (encVarint hsh.length).length + hsh.length, by omega, ?_⟩
    rw [if_pos hp, List.cons_append, List.append_assoc]
    exact runMsg_cont blockIDStep_consumes hstep

theorem runBid_psh (c : Nat) (hsh : List Nat) (psh : CanonicalPartSetHeader)
    (rest : List Nat) (h2 : psh.total < 2 ^ 32) (h3 : psh.hash.length < 2 ^ 32)
    (hc : c < 2 ^ 62) :
    ∃ c2, c2 ≤ c + 11 + psh.Marshal.length ∧
      runMsg blockIDStep c ⟨hsh, ⟨0, []⟩⟩
        ((0x12 :: (encVarint psh.Marshal.length ++ psh.Marshal)) ++ rest)
        = runMsg blockIDStep c2 ⟨hsh, psh⟩ rest := by
  have hml : psh.Marshal.length ≤ 22 + psh.hash.length := pshMarshal_le psh h2 h3
  have hlen : (encVarint psh.Marshal.length).length ≤ 10 :=
    encVarint_length_le_ten (by omega)
  have hld : lenDelim (c + 1) (encVarint psh.Marshal.length ++ (psh.Marshal ++ rest)) =
      .ok (psh.Marshal, c + 1 + (encVarint psh.Marshal.length).length + psh.Marshal.length,
        rest) :=
    lenDelim_enc (c + 1) psh.Marshal rest (by omega) (by omega)
  have hun : CanonicalPartSetHeader.UnmarshalInto ⟨0, []⟩ psh.Marshal = .ok psh :=
    psh_roundtrip psh h2 h3
  have hstep : blockIDStep c ⟨hsh, ⟨0, []⟩⟩
      (0x12 :: (encVarint psh.Marshal.length ++ (psh.Marshal ++ rest))) =
      .cont (c + 1 + (encVarint psh.Marshal.length).length + psh.Marshal.length)
        ⟨hsh, psh⟩ rest := by
    simp [blockIDStep, unmarshalPrelude, decodeVarint_tag (show (0x12 : Nat) < 128 by norm_num),
      hld, hun]
  refine ⟨c + 1 + (encVarint psh.Marshal.length).length + psh.Marshal.length, by omega, ?_⟩
  rw [List.cons_append, List.append_assoc]
  exact runMsg_cont blockIDStep_consumes hstep

/-- Round trip for `CanonicalBlockID`. -/
theorem blockID_roundtrip (m : CanonicalBlockID) (h1 : m.hash.length < 2 ^ 32)
    (h2 : m.partSetHeader.total < 2 ^ 32) (h3 : m.partSetHeader.hash.length < 2 ^ 32) :
    CanonicalBlockID.Unmarshal m.Marshal = .ok m := by
  obtain ⟨hsh, psh⟩ := m
  simp only [CanonicalBlockID.Marshal] at *
  show runMsg blockIDStep 0 ⟨[], ⟨0, []⟩⟩ _ = _
  obtain ⟨c2, hc2, he1⟩ := runBid_hash 0 hsh ⟨0, []⟩
    ((0x12 :: (encVarint psh.Marshal.length ++ psh.Marshal)) ++ []) h1 (by omega)
  rw [show ((0x12 :: (encVarint psh.Marshal.length ++ psh.Marshal)) : List Nat)
      = (0x12 :: (encVarint psh.Marshal.length ++ psh.Marshal)) ++ [] by simp]
  rw [he1]
  obtain ⟨c3, hc3, he2⟩ := runBid_psh c2 hsh psh [] h2 h3 (by omega)
  rw [he2]
  exact runMsg_nil blockIDStep c3 ⟨hsh, psh⟩

theorem runTs_seconds (c : Nat) (sec : Int) (rest : List Nat)
    (hs1 : -2 ^ 63 ≤ sec) (hs2 : sec < 2 ^ 63) :
    ∃ c2, c2 ≤ c + 11 ∧
      runMsg timestampStep c ⟨0, 0⟩
        ((if sec ≠ 0 then 0x8 :: encVarint (intToU64 sec) else []) ++ rest)
        = runMsg timestampStep c2 ⟨sec, 0⟩ rest := by
  by_cases hz : sec = 0
  · subst hz
    exact ⟨c, by omega, by simp⟩
  · have henc : decodeVarint (encVarint (intToU64 sec) ++ rest) = .ok (intToU64 sec, rest) :=
      decodeVarint_enc (intToU64_lt sec) rest
    have hstep : timestampStep c ⟨0, 0⟩ (0x8 :: (encVarint (intToU64 sec) ++ rest)) =
        .cont (c + 1 + (encVarint (intToU64 sec)).length) ⟨sec, 0⟩ rest := by
      simp [timestampStep, unmarshalPrelude, decodeVarint_tag (show (0x8 : Nat) < 128 by norm_num),
        henc, toInt64_intToU64 hs1 hs2]
    refine ⟨c + 1 + (encVarint (intToU64 sec)).length, ?_, ?_⟩
    · have := encVarint_length_le_ten (intToU64_lt sec)
      omega
    · rw [if_pos hz, List.cons_append]
      exact runMsg_cont timestampStep_consumes hstep

theorem runTs_nanos (c : Nat) (sec n : Int) (rest : List Nat)
    (hn1 : -2 ^ 31 ≤ n) (hn2 : n < 2 ^ 31) :
    ∃ c2, c2 ≤ c + 11 ∧
      runMsg timestampStep c ⟨sec, 0⟩
        ((if n ≠ 0 then 0x10 :: encVarint (intToU64 n) else []) ++ rest)
        = runMsg timestampStep c2 ⟨sec, n⟩ rest := by
  by_cases hz : n = 0
  · subst hz
    exact ⟨c, by omega, by simp⟩
  · have henc : decodeVarint (encVarint (intToU64 n) ++ rest) = .ok (intToU64 n, rest) :=
      decodeVarint_enc (intToU64_lt n) rest
    have hstep : timestampStep c ⟨sec, 0⟩ (0x10 :: (encVarint (intToU64 n) ++ rest)) =
        .cont (c + 1 + (encVarint (intToU64 n)).length) ⟨sec, n⟩ rest := by
      simp [timestampStep, unmarshalPrelude,
        decodeVarint_tag (show (0x10 : Nat) < 128 by norm_num), henc,
        toInt32_intToU64 hn1 hn2]
    refine ⟨c + 1 + (encVarint (intToU64 n)).length, ?_, ?_⟩
    · have := encVarint_length_le_ten (intToU64_lt n)
      omega
    · rw [if_pos hz, List.cons_append]
      exact runMsg_cont timestampStep_consumes hstep

/-- A normalized timestamp round-trips, including the nanosecond validation. -/
theorem ts_roundtrip (ts : Timestamp) (hs1 : -2 ^ 63 ≤ ts.seconds) (hs2 : ts.seconds < 2 ^ 63)
    (hn1 : 0 ≤ ts.nanos) (hn2 : ts.nanos < 10 ^ 9) :
    Timestamp.Unmarshal ts.Marshal = .ok ts := by
  obtain ⟨sec, n⟩ := ts
  simp only at hs1 hs2 hn1 hn2
  have hrun : runMsg timestampStep 0 ⟨0, 0⟩ (Timestamp.Marshal ⟨sec, n⟩) = .ok ⟨sec, n⟩ := by
    simp only [Timestamp.Marshal]
    obtain ⟨c2, hc2, he1⟩ := runTs_seconds 0 sec
      ((if n ≠ 0 then 0x10 :: encVarint (intToU64 n) else []) ++ []) hs1 hs2
    rw [show ((if n ≠ 0 then 0x10 :: encVarint (intToU64 n) else []) : List Nat)
        = (if n ≠ 0 then 0x10 :: encVarint (intToU64 n) else []) ++ [] by simp]
    rw [he1]
    obtain ⟨c3, hc3, he2⟩ := runTs_nanos c2 sec n [] (by omega) (by omega)
    rw [he2]
    exact runMsg_nil timestampStep c3 ⟨sec, n⟩
  unfold Timestamp.Unmarshal
  rw [hrun]
  simp only
  rw [if_neg (by simp; omega)]

theorem runVext (c : Nat) (e rest : List Nat) (he : e.length < 2 ^ 32) (hc : c < 2 ^ 62) :
    ∃ c2, c2 ≤ c + 11 + e.length ∧
      runMsg voteExtStep c ⟨[]⟩
        ((if 0 < e.length then 0xa :: (encVarint e.length ++ e) else []) ++ rest)
        = runMsg voteExtStep c2 ⟨e⟩ rest := by
  by_cases hnil : e = []
  · subst hnil
    exact ⟨c, by omega, by simp⟩
  · have hp : 0 < e.length := List.length_pos.mpr hnil
    have hlen : (encVarint e.length).length ≤ 10 := encVarint_length_le_ten (by omega)
    have hld : lenDelim (c + 1) (encVarint e.length ++ (e ++ rest)) =
        .ok (e, c + 1 + (encVarint e.length).length + e.length, rest) :=
      lenDelim_enc (c + 1) e rest (by omega) (by omega)
    have hstep : voteExtStep c ⟨[]⟩ (0xa :: (encVarint e.length ++ (e ++ rest))) =
        .cont (c + 1 + (encVarint e.length).length + e.length) ⟨e⟩ rest := by
      simp [voteExtStep, unmarshalPrelude, decodeVarint_tag (show (0xa : Nat) < 128 by norm_num),
        hld]
    refine ⟨c + 1 + (encVarint e.length).length + e.length, by omega, ?_⟩
    rw [if_pos hp, List.cons_append, List.append_assoc]
    exact runMsg_cont voteExtStep_consumes hstep

/-- Round trip for the vote-extension wrapper message. -/
theorem vext_roundtrip (e : VoteExtensionToSign) (he : e.ext.length < 2 ^ 32) :
    VoteExtensionToSign.UnmarshalInto ⟨[]⟩ e.Marshal = .ok e := by
  obtain ⟨ext⟩ := e
  simp only [VoteExtensionToSign.Marshal] at *
  show runMsg voteExtStep 0 ⟨[]⟩ _ = _
  obtain ⟨c2, hc2, he1⟩ := runVext 0 ext [] he (by omega)
  rw [show ((if 0 < ext.length then 0xa :: (encVarint ext.length ++ ext) else []) : List Nat)
      = (if 0 < ext.length then 0xa :: (encVarint ext.length ++ ext) else []) ++ [] by simp]
  rw [he1]
  exact runMsg_nil voteExtStep c2 ⟨ext⟩

theorem tsMarshal_le (ts : Timestamp) : ts.Marshal.length ≤ 22 := by
  have e1 := encVarint_length_le_ten (intToU64_lt ts.seconds)
  have e2 := encVarint_length_le_ten (intToU64_lt ts.nanos)
  simp only [Timestamp.Marshal, List.length_append]
  split_ifs <;> simp <;> omega

theorem vextMarshal_le (e : VoteExtensionToSign) (he : e.ext.length < 2 ^ 32) :
    e.Marshal.length ≤ 11 + e.ext.length := by
  have e1 := encVarint_length_le_ten (show e.ext.length < 2 ^ 64 by omega)
  simp only [VoteExtensionToSign.Marshal]
  split_ifs <;> (simp; try omega)

theorem bidMarshal_le (m : CanonicalBlockID) (h1 : m.hash.length < 2 ^ 32)
    (h2 : m.partSetHeader.total < 2 ^ 32) (h3 : m.partSetHeader.hash.length < 2 ^ 32) :
    m.Marshal.length ≤ 44 + m.hash.length + m.partSetHeader.hash.length := by
  have hp := pshMarshal_le m.partSetHeader h2 h3
  have e1 := encVarint_length_le_ten (show m.hash.length < 2 ^ 64 by omega)
  have e2 := encVarint_length_le_ten (show m.partSetHeader.Marshal.length < 2 ^ 64 by omega)
  simp only [CanonicalBlockID.Marshal, List.length_append]
  split_ifs <;> simp <;> omega

theorem runProp_type (c : Nat) (ty : Int) (rest : List Nat)
    (h1 : -2 ^ 31 ≤ ty) (h2 : ty < 2 ^ 31) :
    ∃ c2, c2 ≤ c + 11 ∧
      runMsg proposalStep c ⟨0, 0, 0, 0, none, ⟨0, 0⟩, []⟩
        ((if ty ≠ 0 then 0x8 :: encVarint (intToU64 ty) else []) ++ rest)
        = runMsg proposalStep c2 ⟨ty, 0, 0, 0, none, ⟨0, 0⟩, []⟩ rest := by
  by_cases hz : ty = 0
  · subst hz
    exact ⟨c, by omega, by simp⟩
  · have henc : decodeVarint (encVarint (intToU64 ty) ++ rest) = .ok (intToU64 ty, rest) :=
      decodeVarint_enc (intToU64_lt ty) rest
    have hstep : proposalStep c ⟨0, 0, 0, 0, none, ⟨0, 0⟩, []⟩
        (0x8 :: (encVarint (intToU64 ty) ++ rest)) =
        .cont (c + 1 + (encVarint (intToU64 ty)).length) ⟨ty, 0, 0, 0, none, ⟨0, 0⟩, []⟩
          rest := by
      simp [proposalStep, unmarshalPrelude,
        decodeVarint_tag (show (0x8 : Nat) < 128 by norm_num), henc,
        toInt32_intToU64 h1 h2]
    refine ⟨c + 1 + (encVarint (intToU64 ty)).length, ?_, ?_⟩
    · have := encVarint_length_le_ten (intToU64_lt ty)
      omega
    · rw [if_pos hz, List.cons_append]
      exact runMsg_cont proposalStep_consumes hstep

theorem runProp_height (c : Nat) (ty h : Int) (rest : List Nat)
    (h1 : -2 ^ 63 ≤ h) (h2 : h < 2 ^ 63) :
    ∃ c2, c2 ≤ c + 9 ∧
      runMsg proposalStep c ⟨ty, 0, 0, 0, none, ⟨0, 0⟩, []⟩
        ((if h ≠ 0 then 0x11 :: putUint64LE (intToU64 h) else []) ++ rest)
        = runMsg proposalStep c2 ⟨ty, h, 0, 0, none, ⟨0, 0⟩, []⟩ rest := by
  by_cases hz : h = 0
  · subst hz
    exact ⟨c, by omega, by simp⟩
  · have hm : intToU64 h % 18446744073709551616 = intToU64 h := by
      have := intToU64_lt h
      omega
    have hstep : proposalStep c ⟨ty, 0, 0, 0, none, ⟨0, 0⟩, []⟩
        (0x11 :: (putUint64LE (intToU64 h) ++ rest)) =
        .cont (c + 1 + 8) ⟨ty, h, 0, 0, none, ⟨0, 0⟩, []⟩ rest := by
      simp [proposalStep, unmarshalPrelude,
        decodeVarint_tag (show (0x11 : Nat) < 128 by norm_num),
        uint64LE_putUint64LE, putUint64LE_drop, List.length_append, putUint64LE_length,
        hm, toInt64_intToU64 h1 h2]
    refine ⟨c + 1 + 8, by omega, ?_⟩
    rw [if_pos hz, List.cons_append]
    exact runMsg_cont proposalStep_consumes hstep

theorem runProp_round (c : Nat) (ty h r : Int) (rest : List Nat)
    (h1 : -2 ^ 63 ≤ r) (h2 : r < 2 ^ 63) :
    ∃ c2, c2 ≤ c + 9 ∧
      runMsg proposalStep c ⟨ty, h, 0, 0, none, ⟨0, 0⟩, []⟩
        ((if r ≠ 0 then 0x19 :: putUint64LE (intToU64 r) else []) ++ rest)
        = runMsg proposalStep c2 ⟨ty, h, r, 0, none, ⟨0, 0⟩, []⟩ rest := by
  by_cases hz : r = 0
  · subst hz
    exact ⟨c, by omega, by simp⟩
  · have hm : intToU64 r % 18446744073709551616 = intToU64 r := by
      have := intToU64_lt r
      omega
    have hstep : proposalStep c ⟨ty, h, 0, 0, none, ⟨0, 0⟩, []⟩
        (0x19 :: (putUint64LE (intToU64 r) ++ rest)) =
        .cont (c + 1 + 8) ⟨ty, h, r, 0, none, ⟨0, 0⟩, []⟩ rest := by
      simp [proposalStep, unmarshalPrelude,
        decodeVarint_tag (show (0x19 : Nat) < 128 by norm_num),
        uint64LE_putUint64LE, putUint64LE_drop, List.length_append, putUint64LE_length,
        hm, toInt64_intToU64 h1 h2]
    refine ⟨c + 1 + 8, by omega, ?_⟩
    rw [if_pos hz, List.cons_append]
    exact runMsg_cont proposalStep_consumes hstep

theorem runProp_pol (c : Nat) (ty h r pol : Int) (rest : List Nat)
    (h1 : -2 ^ 63 ≤ pol) (h2 : pol < 2 ^ 63) :
    ∃ c2, c2 ≤ c + 11 ∧
      runMsg proposalStep c ⟨ty, h, r, 0, none, ⟨0, 0⟩, []⟩
        ((if pol ≠ 0 then 0x20 :: encVarint (intToU64 pol) else []) ++ rest)
        = runMsg proposalStep c2 ⟨ty, h, r, pol, none, ⟨0, 0⟩, []⟩ rest := by
  by_cases hz : pol = 0
  · subst hz
    exact ⟨c, by omega, by simp⟩
  · have henc : decodeVarint (encVarint (intToU64 pol) ++ rest) = .ok (intToU64 pol, rest) :=
      decodeVarint_enc (intToU64_lt pol) rest
    have hstep : proposalStep c ⟨ty, h, r, 0, none, ⟨0, 0⟩, []⟩
        (0x20 :: (encVarint (intToU64 pol) ++ rest)) =
        .cont (c + 1 + (encVarint (intToU64 pol)).length)
          ⟨ty, h, r, pol, none, ⟨0, 0⟩, []⟩ rest := by
      simp [proposalStep, unmarshalPrelude,
        decodeVarint_tag (show (0x20 : Nat) < 128 by norm_num), henc,
        toInt64_intToU64 h1 h2]
    refine ⟨c + 1 + (encVarint (intToU64 pol)).length, ?_, ?_⟩
    · have := encVarint_length_le_ten (intToU64_lt pol)
      omega
    · rw [if_pos hz, List.cons_append]
      exact runMsg_cont proposalStep_consumes hstep

/-- The bytes of an optional embedded `block_id` field with the given tag
byte (tag 5 in a proposal, tag 4 in a vote): omitted when `nil`. -/
def optBidField (tag : Nat) : Option CanonicalBlockID → List Nat
  | some b => tag :: (encVarint b.Marshal.length ++ b.Marshal)
  | none => []

/-- The bytes of the optional embedded `vote_extension` field (tag 7 in a
vote): omitted when `nil`. -/
def optVextField : Option VoteExtensionToSign → List Nat
  | some e => 0x3a :: (encVarint e.Marshal.length ++ e.Marshal)
  | none => []

theorem runProp_bid (c : Nat) (ty h r pol : Int) (bid : Option CanonicalBlockID)
    (rest : List Nat)
    (hv : ∀ b, bid = some b → b.hash.length < 2 ^ 32 ∧ b.partSetHeader.total < 2 ^ 32 ∧
      b.partSetHeader.hash.length < 2 ^ 32)
    (hc : c < 2 ^ 62) :
    ∃ c2, c2 ≤ c + 100 + (optBidField 0x2a bid).length ∧
      runMsg proposalStep c ⟨ty, h, r, pol, none, ⟨0, 0⟩, []⟩
        (optBidField 0x2a bid ++ rest)
        = runMsg proposalStep c2 ⟨ty, h, r, pol, bid, ⟨0, 0⟩, []⟩ rest := by
  cases bid with
  | none => exact ⟨c, by omega, by simp [optBidField]⟩
  | some b =>
    obtain ⟨hb1, hb2, hb3⟩ := hv b rfl
    have hml := bidMarshal_le b hb1 hb2 hb3
    have hlen : (encVarint b.Marshal.length).length ≤ 10 :=
      encVarint_length_le_ten (by omega)
    have hld : lenDelim (c + 1) (encVarint b.Marshal.length ++ (b.Marshal ++ rest)) =
        .ok (b.Marshal, c + 1 + (encVarint b.Marshal.length).length + b.Marshal.length,
          rest) :=
      lenDelim_enc (c + 1) b.Marshal rest (by omega) (by omega)
    have hun : CanonicalBlockID.UnmarshalInto ⟨[], ⟨0, []⟩⟩ b.Marshal = .ok b :=
      blockID_roundtrip b hb1 hb2 hb3
    have hstep : proposalStep c ⟨ty, h, r, pol, none, ⟨0, 0⟩, []⟩
        (0x2a :: (encVarint b.Marshal.length ++ (b.Marshal ++ rest))) =
        .cont (c + 1 + (encVarint b.Marshal.length).length + b.Marshal.length)
          ⟨ty, h, r, pol, some b, ⟨0, 0⟩, []⟩ rest := by
      simp [proposalStep, unmarshalPrelude,
        decodeVarint_tag (show (0x2a : Nat) < 128 by norm_num), hld, hun]
    refine ⟨c + 1 + (encVarint b.Marshal.length).length + b.Marshal.length, ?_, ?_⟩
    · simp only [optBidField, List.length_cons, List.length_append]
      omega
    · show runMsg proposalStep c _ ((0x2a :: (encVarint b.Marshal.length ++ b.Marshal)) ++ rest)
        = _
      rw [List.cons_append, List.append_assoc]
      exact runMsg_cont proposalStep_consumes hstep

theorem runProp_ts (c : Nat) (ty h r pol : Int) (bid : Option CanonicalBlockID)
    (ts : Timestamp) (rest : List Nat)
    (hs1 : -2 ^ 63 ≤ ts.seconds) (hs2 : ts.seconds < 2 ^ 63)
    (hn1 : 0 ≤ ts.nanos) (hn2 : ts.nanos < 10 ^ 9) (hc : c < 2 ^ 62) :
    ∃ c2, c2 ≤ c + 33 ∧
      runMsg proposalStep c ⟨ty, h, r, pol, bid, ⟨0, 0⟩, []⟩
        ((0x32 :: (encVarint ts.Marshal.length ++ ts.Marshal)) ++ rest)
        = runMsg proposalStep c2 ⟨ty, h, r, pol, bid, ts, []⟩ rest := by
  have hml := tsMarshal_le ts
  have hlen : (encVarint ts.Marshal.length).length ≤ 10 :=
    encVarint_length_le_ten (by omega)
  have hld : lenDelim (c + 1) (encVarint ts.Marshal.length ++ (ts.Marshal ++ rest)) =
      .ok (ts.Marshal, c + 1 + (encVarint ts.Marshal.length).length + ts.Marshal.length,
        rest) :=
    lenDelim_enc (c + 1) ts.Marshal rest (by omega) (by omega)
  have hun : Timestamp.Unmarshal ts.Marshal = .ok ts := ts_roundtrip ts hs1 hs2 hn1 hn2
  have hstep : proposalStep c ⟨ty, h, r, pol, bid, ⟨0, 0⟩, []⟩
      (0x32 :: (encVarint ts.Marshal.length ++ (ts.Marshal ++ rest))) =
      .cont (c + 1 + (encVarint ts.Marshal.length).length + ts.Marshal.length)
        ⟨ty, h, r, pol, bid, ts, []⟩ rest := by
    simp [proposalStep, unmarshalPrelude,
      decodeVarint_tag (show (0x32 : Nat) < 128 by norm_num), hld, hun]
  refine ⟨c + 1 + (encVarint ts.Marshal.length).length + ts.Marshal.length, by omega, ?_⟩
  rw [List.cons_append, List.append_assoc]
  exact runMsg_cont proposalStep_consumes hstep

theorem runProp_chain (c : Nat) (ty h r pol : Int) (bid : Option CanonicalBlockID)
    (ts : Timestamp) (ch rest : List Nat) (hch : ch.length < 2 ^ 32) (hc : c < 2 ^ 62) :
    ∃ c2, c2 ≤ c + 11 + ch.length ∧
      runMsg proposalStep c ⟨ty, h, r, pol, bid, ts, []⟩
        ((if 0 < ch.length then 0x3a :: (encVarint ch.length ++ ch) else []) ++ rest)
        = runMsg proposalStep c2 ⟨ty, h, r, pol, bid, ts, ch⟩ rest := by
  by_cases hnil : ch = []
  · subst hnil
    exact ⟨c, by omega, by simp⟩
  · have hp : 0 < ch.length := List.length_pos.mpr hnil
    have hlen : (encVarint ch.length).length ≤ 10 := encVarint_length_le_ten (by omega)
    have hld : lenDelim (c + 1) (encVarint ch.length ++ (ch ++ rest)) =
        .ok (ch, c + 1 + (encVarint ch.length).length + ch.length, rest) :=
      lenDelim_enc (c + 1) ch rest (by omega) (by omega)
    have hstep : proposalStep c ⟨ty, h, r, pol, bid, ts, []⟩
        (0x3a :: (encVarint ch.length ++ (ch ++ rest))) =
        .cont (c + 1 + (encVarint ch.length).length + ch.length)
          ⟨ty, h, r, pol, bid, ts, ch⟩ rest := by
      simp [proposalStep, unmarshalPrelude,
        decodeVarint_tag (show (0x3a : Nat) < 128 by norm_num), hld]
    refine ⟨c + 1 + (encVarint ch.length).length + ch.length, by omega, ?_⟩
    rw [if_pos hp, List.cons_append, List.append_assoc]
    exact runMsg_cont proposalStep_consumes hstep

/-- Round trip for `CanonicalProposal`. -/
theorem proposal_roundtrip (m : CanonicalProposal)
    (hty1 : -2 ^ 31 ≤ m.type) (hty2 : m.type < 2 ^ 31)
    (hh1 : -2 ^ 63 ≤ m.height) (hh2 : m.height < 2 ^ 63)
    (hr1 : -2 ^ 63 ≤ m.round) (hr2 : m.round < 2 ^ 63)
    (hp1 : -2 ^ 63 ≤ m.polRound) (hp2 : m.polRound < 2 ^ 63)
    (hbid : ∀ b, m.blockID = some b → b.hash.length < 2 ^ 32 ∧
      b.partSetHeader.total < 2 ^ 32 ∧ b.partSetHeader.hash.length < 2 ^ 32)
    (hs1 : -2 ^ 63 ≤ m.timestamp.seconds) (hs2 : m.timestamp.seconds < 2 ^ 63)
    (hn1 : 0 ≤ m.timestamp.nanos) (hn2 : m.timestamp.nanos < 10 ^ 9)
    (hch : m.chainID.length < 2 ^ 32) :
    CanonicalProposal.Unmarshal m.Marshal = .ok m := by
  obtain ⟨ty, h, r, pol, bid, ts, ch⟩ := m
  simp only at hty1 hty2 hh1 hh2 hr1 hr2 hp1 hp2 hbid hs1 hs2 hn1 hn2 hch
  have hbidlen : (optBidField 0x2a bid).length ≤ 2 ^ 35 := by
    cases bid with
    | none => simp [optBidField]
    | some b =>
      obtain ⟨hb1, hb2, hb3⟩ := hbid b rfl
      have h1 := bidMarshal_le b hb1 hb2 hb3
      have h2 : (encVarint b.Marshal.length).length ≤ 10 :=
        encVarint_length_le_ten (by omega)
      simp only [optBidField, List.length_cons, List.length_append]
      omega
  have hassoc : CanonicalProposal.Marshal ⟨ty, h, r, pol, bid, ts, ch⟩ =
      (if ty ≠ 0 then 0x8 :: encVarint (intToU64 ty) else []) ++
      ((if h ≠ 0 then 0x11 :: putUint64LE (intToU64 h) else []) ++
      ((if r ≠ 0 then 0x19 :: putUint64LE (intToU64 r) else []) ++
      ((if pol ≠ 0 then 0x20 :: encVarint (intToU64 pol) else []) ++
      (optBidField 0x2a bid ++
      ((0x32 :: (encVarint ts.Marshal.length ++ ts.Marshal)) ++
      ((if 0 < ch.length then 0x3a :: (encVarint ch.length ++ ch) else []) ++
        ([] : List Nat))))))) := by
    cases bid <;> simp [CanonicalProposal.Marshal, optBidField, List.append_assoc]
  show runMsg proposalStep 0 ⟨0, 0, 0, 0, none, ⟨0, 0⟩, []⟩ _ = _
  rw [hassoc]
  obtain ⟨c1, hb1, he1⟩ := runProp_type 0 ty _ hty1 hty2
  rw [he1]
  obtain ⟨c2, hb2, he2⟩ := runProp_height c1 ty h _ hh1 hh2
  rw [he2]
  obtain ⟨c3, hb3, he3⟩ := runProp_round c2 ty h r _ hr1 hr2
  rw [he3]
  obtain ⟨c4, hb4, he4⟩ := runProp_pol c3 ty h r pol _ hp1 hp2
  rw [he4]
  obtain ⟨c5, hb5, he5⟩ := runProp_bid c4 ty h r pol bid _ hbid (by omega)
  rw [he5]
  obtain ⟨c6, hb6, he6⟩ := runProp_ts c5 ty h r pol bid ts _ hs1 hs2 hn1 hn2 (by omega)
  rw [he6]
  obtain ⟨c7, hb7, he7⟩ := runProp_chain c6 ty h r pol bid ts ch _ hch (by omega)
  rw [he7]
  exact runMsg_nil proposalStep c7 ⟨ty, h, r, pol, bid, ts, ch⟩

theorem runVote_type (c : Nat) (ty : Int) (rest : List Nat)
    (h1 : -2 ^ 31 ≤ ty) (h2 : ty < 2 ^ 31) :
    ∃ c2, c2 ≤ c + 11 ∧
      runMsg voteStep c ⟨0, 0, 0, none, ⟨0, 0⟩, [], none⟩
        ((if ty ≠ 0 then 0x8 :: encVarint (intToU64 ty) else []) ++ rest)
        = runMsg voteStep c2 ⟨ty, 0, 0, none, ⟨0, 0⟩, [], none⟩ rest := by
  by_cases hz : ty = 0
  · subst hz
    exact ⟨c, by omega, by simp⟩
  · have henc : decodeVarint (encVarint (intToU64 ty) ++ rest) = .ok (intToU64 ty, rest) :=
      decodeVarint_enc (intToU64_lt ty) rest
    have hstep : voteStep c ⟨0, 0, 0, none, ⟨0, 0⟩, [], none⟩
        (0x8 :: (encVarint (intToU64 ty) ++ rest)) =
        .cont (c + 1 + (encVarint (intToU64 ty)).length)
          ⟨ty, 0, 0, none, ⟨0, 0⟩, [], none⟩ rest := by
      simp [voteStep, unmarshalPrelude,
        decodeVarint_tag (show (0x8 : Nat) < 128 by norm_num), henc,
        toInt32_intToU64 h1 h2]
    refine ⟨c + 1 + (encVarint (intToU64 ty)).length, ?_, ?_⟩
    · have := encVarint_length_le_ten (intToU64_lt ty)
      omega
    · rw [if_pos hz, List.cons_append]
      exact runMsg_cont voteStep_consumes hstep

theorem runVote_height (c : Nat) (ty h : Int) (rest : List Nat)
    (h1 : -2 ^ 63 ≤ h) (h2 : h < 2 ^ 63) :
    ∃ c2, c2 ≤ c + 9 ∧
      runMsg voteStep c ⟨ty, 0, 0, none, ⟨0, 0⟩, [], none⟩
        ((if h ≠ 0 then 0x11 :: putUint64LE (intToU64 h) else []) ++ rest)
        = runMsg voteStep c2 ⟨ty, h, 0, none, ⟨0, 0⟩, [], none⟩ rest := by
  by_cases hz : h = 0
  · subst hz
    exact ⟨c, by omega, by simp⟩
  · have hm : intToU64 h % 18446744073709551616 = intToU64 h := by
      have := intToU64_lt h
      omega
    have hstep : voteStep c ⟨ty, 0, 0, none, ⟨0, 0⟩, [], none⟩
        (0x11 :: (putUint64LE (intToU64 h) ++ rest)) =
        .cont (c + 1 + 8) ⟨ty, h, 0, none, ⟨0, 0⟩, [], none⟩ rest := by
      simp [voteStep, unmarshalPrelude,
        decodeVarint_tag (show (0x11 : Nat) < 128 by norm_num),
        uint64LE_putUint64LE, putUint64LE_drop, List.length_append, putUint64LE_length,
        hm, toInt64_intToU64 h1 h2]
    refine ⟨c + 1 + 8, by omega, ?_⟩
    rw [if_pos hz, List.cons_append]
    exact runMsg_cont voteStep_consumes hstep

theorem runVote_round (c : Nat) (ty h r : Int) (rest : List Nat)
    (h1 : -2 ^ 63 ≤ r) (h2 : r < 2 ^ 63) :
    ∃ c2, c2 ≤ c + 9 ∧
      runMsg voteStep c ⟨ty, h, 0, none, ⟨0, 0⟩, [], none⟩
        ((if r ≠ 0 then 0x19 :: putUint64LE (intToU64 r) else []) ++ rest)
        = runMsg voteStep c2 ⟨ty, h, r, none, ⟨0, 0⟩, [], none⟩ rest := by
  by_cases hz : r = 0
  · subst hz
    exact ⟨c, by omega, by simp⟩
  · have hm : intToU64 r % 18446744073709551616 = intToU64 r := by
      have := intToU64_lt r
      omega
    have hstep : voteStep c ⟨ty, h, 0, none, ⟨0, 0⟩, [], none⟩
        (0x19 :: (putUint64LE (intToU64 r) ++ rest)) =
        .cont (c + 1 + 8) ⟨ty, h, r, none, ⟨0, 0⟩, [], none⟩ rest := by
      simp [voteStep, unmarshalPrelude,
        decodeVarint_tag (show (0x19 : Nat) < 128 by norm_num),
        uint64LE_putUint64LE, putUint64LE_drop, List.length_append, putUint64LE_length,
        hm, toInt64_intToU64 h1 h2]
    refine ⟨c + 1 + 8, by omega, ?_⟩
    rw [if_pos hz, List.cons_append]
    exact runMsg_cont voteStep_consumes hstep

theorem runVote_bid (c : Nat) (ty h r : Int) (bid : Option CanonicalBlockID)
    (rest : List Nat)
    (hv : ∀ b, bid = some b → b.hash.length < 2 ^ 32 ∧ b.partSetHeader.total < 2 ^ 32 ∧
      b.partSetHeader.hash.length < 2 ^ 32)
    (hc : c < 2 ^ 62) :
    ∃ c2, c2 ≤ c + 100 + (optBidField 0x22 bid).length ∧
      runMsg voteStep c ⟨ty, h, r, none, ⟨0, 0⟩, [], none⟩
        (optBidField 0x22 bid ++ rest)
        = runMsg voteStep c2 ⟨ty, h, r, bid, ⟨0, 0⟩, [], none⟩ rest := by
  cases bid with
  | none => exact ⟨c, by omega, by simp [optBidField]⟩
  | some b =>
    obtain ⟨hb1, hb2, hb3⟩ := hv b rfl
    have hml := bidMarshal_le b hb1 hb2 hb3
    have hlen : (encVarint b.Marshal.length).length ≤ 10 :=
      encVarint_length_le_ten (by omega)
    have hld : lenDelim (c + 1) (encVarint b.Marshal.length ++ (b.Marshal ++ rest)) =
        .ok (b.Marshal, c + 1 + (encVarint b.Marshal.length).length + b.Marshal.length,
          rest) :=
      lenDelim_enc (c + 1) b.Marshal rest (by omega) (by omega)
    have hun : CanonicalBlockID.UnmarshalInto ⟨[], ⟨0, []⟩⟩ b.Marshal = .ok b :=
      blockID_roundtrip b hb1 hb2 hb3
    have hstep : voteStep c ⟨ty, h, r, none, ⟨0, 0⟩, [], none⟩
        (0x22 :: (encVarint b.Marshal.length ++ (b.Marshal ++ rest))) =
        .cont (c + 1 + (encVarint b.Marshal.length).length + b.Marshal.length)
          ⟨ty, h, r, some b, ⟨0, 0⟩, [], none⟩ rest := by
      simp [voteStep, unmarshalPrelude,
        decodeVarint_tag (show (0x22 : Nat) < 128 by norm_num), hld, hun]
    refine ⟨c + 1 + (encVarint b.Marshal.length).length + b.Marshal.length, ?_, ?_⟩
    · simp only [optBidField, List.length_cons, List.length_append]
      omega
    · show runMsg voteStep c _ ((0x22 :: (encVarint b.Marshal.length ++ b.Marshal)) ++ rest)
        = _
      rw [List.cons_append, List.append_assoc]
      exact runMsg_cont voteStep_consumes hstep

theorem runVote_ts (c : Nat) (ty h r : Int) (bid : Option CanonicalBlockID)
    (ts : Timestamp) (rest : List Nat)
    (hs1 : -2 ^ 63 ≤ ts.seconds) (hs2 : ts.seconds < 2 ^ 63)
    (hn1 : 0 ≤ ts.nanos) (hn2 : ts.nanos < 10 ^ 9) (hc : c < 2 ^ 62) :
    ∃ c2, c2 ≤ c + 33 ∧
      runMsg voteStep c ⟨ty, h, r, bid, ⟨0, 0⟩, [], none⟩
        ((0x2a :: (encVarint ts.Marshal.length ++ ts.Marshal)) ++ rest)
        = runMsg voteStep c2 ⟨ty, h, r, bid, ts, [], none⟩ rest := by
  have hml := tsMarshal_le ts
  have hlen : (encVarint ts.Marshal.length).length ≤ 10 :=
    encVarint_length_le_ten (by omega)
  have hld : lenDelim (c + 1) (encVarint ts.Marshal.length ++ (ts.Marshal ++ rest)) =
      .ok (ts.Marshal, c + 1 + (encVarint ts.Marshal.length).length + ts.Marshal.length,
        rest) :=
    lenDelim_enc (c + 1) ts.Marshal rest (by omega) (by omega)
  have hun : Timestamp.Unmarshal ts.Marshal = .ok ts := ts_roundtrip ts hs1 hs2 hn1 hn2
  have hstep : voteStep c ⟨ty, h, r, bid, ⟨0, 0⟩, [], none⟩
      (0x2a :: (encVarint ts.Marshal.length ++ (ts.Marshal ++ rest))) =
      .cont (c + 1 + (encVarint ts.Marshal.length).length + ts.Marshal.length)
        ⟨ty, h, r, bid, ts, [], none⟩ rest := by
    simp [voteStep, unmarshalPrelude,
      decodeVarint_tag (show (0x2a : Nat) < 128 by norm_num), hld, hun]
  refine ⟨c + 1 + (encVarint ts.Marshal.length).length + ts.Marshal.length, by omega, ?_⟩
  rw [List.cons_append, List.append_assoc]
  exact runMsg_cont voteStep_consumes hstep

theorem runVote_chain (c : Nat) (ty h r : Int) (bid : Option CanonicalBlockID)
    (ts : Timestamp) (ch rest : List Nat) (hch : ch.length < 2 ^ 32) (hc : c < 2 ^ 62) :
    ∃ c2, c2 ≤ c + 11 + ch.length ∧
      runMsg voteStep c ⟨ty, h, r, bid, ts, [], none⟩
        ((if 0 < ch.length then 0x32 :: (encVarint ch.length ++ ch) else []) ++ rest)
        = runMsg voteStep c2 ⟨ty, h, r, bid, ts, ch, none⟩ rest := by
  by_cases hnil : ch = []
  · subst hnil
    exact ⟨c, by omega, by simp⟩
  · have hp : 0 < ch.length := List.length_pos.mpr hnil
    have hlen : (encVarint ch.length).length ≤ 10 := encVarint_length_le_ten (by omega)
    have hld : lenDelim (c + 1) (encVarint ch.length ++ (ch ++ rest)) =
        .ok (ch, c + 1 + (encVarint ch.length).length + ch.length, rest) :=
      lenDelim_enc (c + 1) ch rest (by omega) (by omega)
    have hstep : voteStep c ⟨ty, h, r, bid, ts, [], none⟩
        (0x32 :: (encVarint ch.length ++ (ch ++ rest))) =
        .cont (c + 1 + (encVarint ch.length).length + ch.length)
          ⟨ty, h, r, bid, ts, ch, none⟩ rest := by
      simp [voteStep, unmarshalPrelude,
        decodeVarint_tag (show (0x32 : Nat) < 128 by norm_num), hld]
    refine ⟨c + 1 + (encVarint ch.length).length + ch.length, by omega, ?_⟩
    rw [if_pos hp, List.cons_append, List.append_assoc]
    exact runMsg_cont voteStep_consumes hstep

theorem runVote_vext (c : Nat) (ty h r : Int) (bid : Option CanonicalBlockID)
    (ts : Timestamp) (ch : List Nat) (vext : Option VoteExtensionToSign) (rest : List Nat)
    (hv : ∀ e, vext = some e → e.ext.length < 2 ^ 32) (hc : c < 2 ^ 62) :
    ∃ c2, c2 ≤ c + 100 + (optVextField vext).length ∧
      runMsg voteStep c ⟨ty, h, r, bid, ts, ch, none⟩ (optVextField vext ++ rest)
        = runMsg voteStep c2 ⟨ty, h, r, bid, ts, ch, vext⟩ rest := by
  cases vext with
  | none => exact ⟨c, by omega, by simp [optVextField]⟩
  | some e =>
    have he := hv e rfl
    have hml := vextMarshal_le e he
    have hlen : (encVarint e.Marshal.length).length ≤ 10 :=
      encVarint_length_le_ten (by omega)
    have hld : lenDelim (c + 1) (encVarint e.Marshal.length ++ (e.Marshal ++ rest)) =
        .ok (e.Marshal, c + 1 + (encVarint e.Marshal.length).length + e.Marshal.length,
          rest) :=
      lenDelim_enc (c + 1) e.Marshal rest (by omega) (by omega)
    have hun : VoteExtensionToSign.UnmarshalInto ⟨[]⟩ e.Marshal = .ok e :=
      vext_roundtrip e he
    have hstep : voteStep c ⟨ty, h, r, bid, ts, ch, none⟩
        (0x3a :: (encVarint e.Marshal.length ++ (e.Marshal ++ rest))) =
        .cont (c + 1 + (encVarint e.Marshal.length).length + e.Marshal.length)
          ⟨ty, h, r, bid, ts, ch, some e⟩ rest := by
      simp [voteStep, unmarshalPrelude,
        decodeVarint_tag (show (0x3a : Nat) < 128 by norm_num), hld, hun]
    refine ⟨c + 1 + (encVarint e.Marshal.length).length + e.Marshal.length, ?_, ?_⟩
    · simp only [optVextField, List.length_cons, List.length_append]
      omega
    · show runMsg voteStep c _ ((0x3a :: (encVarint e.Marshal.length ++ e.Marshal)) ++ rest)
        = _
      rw [List.cons_append, List.append_assoc]
      exact runMsg_cont voteStep_consumes hstep

/-- Round trip for `CanonicalVote`. -/
theorem vote_roundtrip (m : CanonicalVote)
    (hty1 : -2 ^ 31 ≤ m.type) (hty2 : m.type < 2 ^ 31)
    (hh1 : -2 ^ 63 ≤ m.height) (hh2 : m.height < 2 ^ 63)
    (hr1 : -2 ^ 63 ≤ m.round) (hr2 : m.round < 2 ^ 63)
    (hbid : ∀ b, m.blockID = some b → b.hash.length < 2 ^ 32 ∧
      b.partSetHeader.total < 2 ^ 32 ∧ b.partSetHeader.hash.length < 2 ^ 32)
    (hs1 : -2 ^ 63 ≤ m.timestamp.seconds) (hs2 : m.timestamp.seconds < 2 ^ 63)
    (hn1 : 0 ≤ m.timestamp.nanos) (hn2 : m.timestamp.nanos < 10 ^ 9)
    (hch : m.chainID.length < 2 ^ 32)
    (hvx : ∀ e, m.voteExtension = some e → e.ext.length < 2 ^ 32) :
    CanonicalVote.Unmarshal m.Marshal = .ok m := by
  obtain ⟨ty, h, r, bid, ts, ch, vext⟩ := m
  simp only at hty1 hty2 hh1 hh2 hr1 hr2 hbid hs1 hs2 hn1 hn2 hch hvx
  have hbidlen : (optBidField 0x22 bid).length ≤ 2 ^ 35 := by
    cases bid with
    | none => simp [optBidField]
    | some b =>
      obtain ⟨hb1, hb2, hb3⟩ := hbid b rfl
      have h1 := bidMarshal_le b hb1 hb2 hb3
      have h2 : (encVarint b.Marshal.length).length ≤ 10 :=
        encVarint_length_le_ten (by omega)
      simp only [optBidField, List.length_cons, List.length_append]
      omega
  have hassoc : CanonicalVote.Marshal ⟨ty, h, r, bid, ts, ch, vext⟩ =
      (if ty ≠ 0 then 0x8 :: encVarint (intToU64 ty) else []) ++
      ((if h ≠ 0 then 0x11 :: putUint64LE (intToU64 h) else []) ++
      ((if r ≠ 0 then 0x19 :: putUint64LE (intToU64 r) else []) ++
      (optBidField 0x22 bid ++
      ((0x2a :: (encVarint ts.Marshal.length ++ ts.Marshal)) ++
      ((if 0 < ch.length then 0x32 :: (encVarint ch.length ++ ch) else []) ++
      (optVextField vext ++
        ([] : List Nat))))))) := by
    cases bid <;> cases vext <;>
      simp [CanonicalVote.Marshal, optBidField, optVextField, List.append_assoc]
  show runMsg voteStep 0 ⟨0, 0, 0, none, ⟨0, 0⟩, [], none⟩ _ = _
  rw [hassoc]
  obtain ⟨c1, hb1, he1⟩ := runVote_type 0 ty _ hty1 hty2
  rw [he1]
  obtain ⟨c2, hb2, he2⟩ := runVote_height c1 ty h _ hh1 hh2
  rw [he2]
  obtain ⟨c3, hb3, he3⟩ := runVote_round c2 ty h r _ hr1 hr2
  rw [he3]
  obtain ⟨c4, hb4, he4⟩ := runVote_bid c3 ty h r bid _ hbid (by omega)
  rw [he4]
  obtain ⟨c5, hb5, he5⟩ := runVote_ts c4 ty h r bid ts _ hs1 hs2 hn1 hn2 (by omega)
  rw [he5]
  obtain ⟨c6, hb6, he6⟩ := runVote_chain c5 ty h r bid ts ch _ hch (by omega)
  rw [he6]
  obtain ⟨c7, hb7, he7⟩ := runVote_vext c6 ty h r bid ts ch vext _ hvx (by omega)
  rw [he7]
  exact runMsg_nil voteStep c7 ⟨ty, h, r, bid, ts, ch, vext⟩

/-! ## Marshalled length equals `Size` -/

theorem pshMarshal_length (m : CanonicalPartSetHeader) : m.Marshal.length = m.Size := by
  simp only [CanonicalPartSetHeader.Marshal, CanonicalPartSetHeader.Size,
    List.length_append]
  split_ifs <;> simp [encVarint_length, List.length_append] <;> omega

theorem bidMarshal_length (m : CanonicalBlockID) : m.Marshal.length = m.Size := by
  have hp := pshMarshal_length m.partSetHeader
  simp only [CanonicalBlockID.Marshal, CanonicalBlockID.Size, List.length_append,
    List.length_cons, encVarint_length, hp]
  split_ifs <;> simp [encVarint_length, List.length_append, hp] <;> omega

theorem tsMarshal_length (ts : Timestamp) : ts.Marshal.length = ts.Size := by
  simp only [Timestamp.Marshal, Timestamp.Size, List.length_append]
  split_ifs <;> simp [encVarint_length] <;> omega

theorem vextMarshal_length (e : VoteExtensionToSign) : e.Marshal.length = e.Size := by
  simp only [VoteExtensionToSign.Marshal, VoteExtensionToSign.Size]
  split_ifs <;> (simp [encVarint_length, List.length_append]; try omega)

theorem proposalMarshal_length (m : CanonicalProposal) : m.Marshal.length = m.Size := by
  have hts := tsMarshal_length m.timestamp
  simp only [CanonicalProposal.Marshal, CanonicalProposal.Size, List.length_append,
    List.length_cons, encVarint_length, hts]
  cases hb : m.blockID with
  | none =>
    split_ifs <;>
      simp [encVarint_length, List.length_append, putUint64LE_length, hts] <;> omega
  | some b =>
    have hbl := bidMarshal_length b
    split_ifs <;>
      simp [encVarint_length, List.length_append, putUint64LE_length, hts, hbl] <;> omega

theorem voteMarshal_length (m : CanonicalVote) : m.Marshal.length = m.Size := by
  have hts := tsMarshal_length m.timestamp
  simp only [CanonicalVote.Marshal, CanonicalVote.Size, List.length_append,
    List.length_cons, encVarint_length, hts]
  cases hb : m.blockID with
  | none =>
    cases hv : m.voteExtension with
    | none =>
      split_ifs <;>
        simp [encVarint_length, List.length_append, putUint64LE_length, hts] <;> omega
    | some e =>
      have hel := vextMarshal_length e
      split_ifs <;>
        simp [encVarint_length, List.length_append, putUint64LE_length, hts, hel] <;> omega
  | some b =>
    have hbl := bidMarshal_length b
    cases hv : m.voteExtension with
    | none =>
      split_ifs <;>
        simp [encVarint_length, List.length_append, putUint64LE_length, hts, hbl] <;> omega
    | some e =>
      have hel := vextMarshal_length e
      split_ifs <;>
        simp [encVarint_length, List.length_append, putUint64LE_length, hts, hbl, hel] <;>
        omega

/-! ## Error paths of the varint reader and the field skipper -/

theorem decodeVarintAux_overflow :
    ∀ (pre : List Nat) (shift acc : Nat) (rest : List Nat),
      (∀ b ∈ pre, 128 ≤ b) → 64 ≤ shift + 7 * pre.length →
      decodeVarintAux shift acc (pre ++ rest) = .error .overflow := by
  intro pre
  induction pre with
  | nil =>
    intro shift acc rest _ hsh
    simp only [List.length_nil, Nat.mul_zero, Nat.add_zero] at hsh
    cases rest with
    | nil => simp [decodeVarintAux, hsh]
    | cons b bs => simp [decodeVarintAux, hsh]
  | cons b pre ih =>
    intro shift acc rest hall hsh
    by_cases h64 : 64 ≤ shift
    · simp [decodeVarintAux, h64]
    · have hb : 128 ≤ b := hall b (by simp)
      simp only [List.cons_append, decodeVarintAux, if_neg h64,
        if_neg (by omega : ¬ b < 128)]
      apply ih (shift + 7) _ rest (fun x hx => hall x (by simp [hx]))
      simp only [List.length_cons] at hsh
      omega

theorem decodeVarintAux_truncated :
    ∀ (bs : List Nat) (shift acc : Nat),
      (∀ b ∈ bs, 128 ≤ b) → shift + 7 * bs.length ≤ 63 →
      decodeVarintAux shift acc bs = .error .truncated := by
  intro bs
  induction bs with
  | nil =>
    intro shift acc _ hsh
    simp only [List.length_nil, Nat.mul_zero, Nat.add_zero] at hsh
    have hlt : ¬ 64 ≤ shift := by omega
    simp [decodeVarintAux, hlt]
  | cons b bs ih =>
    intro shift acc hall hsh
    simp only [List.length_cons] at hsh
    have hb : 128 ≤ b := hall b (by simp)
    simp only [decodeVarintAux, if_neg (by omega : ¬ 64 ≤ shift),
      if_neg (by omega : ¬ b < 128)]
    apply ih (shift + 7) _ (fun x hx => hall x (by simp [hx]))
    omega

theorem skipCanonical_of_done {l : List Nat} {r : Except PErr Nat}
    (hne : l ≠ []) (h : skipStep 0 0 l = .done r) : skipCanonical l = r := by
  cases l with
  | nil => exact absurd rfl hne
  | cons b bs =>
    show skipLoop ((b :: bs).length + 1) 0 0 (b :: bs) = r
    simp only [List.length_cons, skipLoop, h]

theorem skipCanonical_of_cont_done {l : List Nat} {c1 d1 : Nat} {l2 : List Nat}
    {r : Except PErr Nat} (hne : l ≠ []) (hne2 : l2 ≠ [])
    (h1 : skipStep 0 0 l = .cont c1 d1 l2) (h2 : skipStep c1 d1 l2 = .done r) :
    skipCanonical l = r := by
  cases l with
  | nil => exact absurd rfl hne
  | cons b bs =>
    cases l2 with
    | nil => exact absurd rfl hne2
    | cons b2 bs2 =>
      show skipLoop ((b :: bs).length + 1) 0 0 (b :: bs) = r
      simp only [List.length_cons, skipLoop, h1, h2]

theorem skipCanonical_of_cont_nil {l : List Nat} {c1 d1 : Nat}
    (hne : l ≠ []) (h1 : skipStep 0 0 l = .cont c1 d1 []) :
    skipCanonical l = .error .truncated := by
  cases l with
  | nil => exact absurd rfl hne
  | cons b bs =>
    show skipLoop ((b :: bs).length + 1) 0 0 (b :: bs) = _
    simp only [List.length_cons, skipLoop, h1]

theorem append_ne_nil_left {l1 l2 : List Nat} (h : l1 ≠ []) : l1 ++ l2 ≠ [] := by
  intro hc
  exact h (List.append_eq_nil.mp hc).1

theorem skipCanonical_wt0 (n v : Nat) (rest : List Nat) (ht : 8 * n < 2 ^ 64)
    (hv : v < 2 ^ 64) :
    skipCanonical (encVarint (8 * n) ++ (encVarint v ++ rest)) =
      .ok ((encVarint (8 * n)).length + (encVarint v).length) := by
  have htag := decodeVarint_enc ht (encVarint v ++ rest)
  have henc := decodeVarint_enc hv rest
  have hmod : 8 * n % 8 = 0 := by omega
  have hb1 := encVarint_length_le_ten ht
  have hb2 := encVarint_length_le_ten hv
  have hstep : skipStep 0 0 (encVarint (8 * n) ++ (encVarint v ++ rest)) =
      .done (.ok ((encVarint (8 * n)).length + (encVarint v).length)) := by
    have hc : ¬ (9223372036854775808 : Nat) ≤ (encVarint (8 * n)).length + (encVarint v).length := by omega
    simp [skipStep, skipWire, htag, henc, hmod, List.length_append, hc]
  exact skipCanonical_of_done (append_ne_nil_left (encVarint_ne_nil _)) hstep

theorem skipCanonical_wt1 (n : Nat) (rest : List Nat) (ht : 8 * n + 1 < 2 ^ 64) :
    skipCanonical (encVarint (8 * n + 1) ++ rest) =
      .ok ((encVarint (8 * n + 1)).length + 8) := by
  have htag := decodeVarint_enc ht rest
  have hmod : (8 * n + 1) % 8 = 1 := by omega
  have hb1 := encVarint_length_le_ten ht
  have hstep : skipStep 0 0 (encVarint (8 * n + 1) ++ rest) =
      .done (.ok ((encVarint (8 * n + 1)).length + 8)) := by
    have hc : ¬ (9223372036854775808 : Nat) ≤ (encVarint (8 * n + 1)).length + 8 := by omega
    simp [skipStep, skipWire, htag, hmod, List.length_append, hc]
  exact skipCanonical_of_done (append_ne_nil_left (encVarint_ne_nil _)) hstep

theorem skipCanonical_wt2 (n len : Nat) (rest : List Nat) (ht : 8 * n + 2 < 2 ^ 64)
    (hlen : len + 30 < 2 ^ 63) :
    skipCanonical (encVarint (8 * n + 2) ++ (encVarint len ++ rest)) =
      .ok ((encVarint (8 * n + 2)).length + (encVarint len).length + len) := by
  have htag := decodeVarint_enc ht (encVarint len ++ rest)
  have henc := decodeVarint_enc (show len < 2 ^ 64 by omega) rest
  have hmod : (8 * n + 2) % 8 = 2 := by omega
  have hb1 := encVarint_length_le_ten ht
  have hb2 := encVarint_length_le_ten (show len < 2 ^ 64 by omega)
  have hstep : skipStep 0 0 (encVarint (8 * n + 2) ++ (encVarint len ++ rest)) =
      .done (.ok ((encVarint (8 * n + 2)).length + (encVarint len).length + len)) := by
    have hc1 : ¬ (9223372036854775808 : Nat) ≤ len := by omega
    have hc2 : ¬ (9223372036854775808 : Nat) ≤ (encVarint (8 * n + 2)).length + (encVarint len).length + len := by
      omega
    simp [skipStep, skipWire, htag, henc, hmod, List.length_append, hc1, hc2]
  exact skipCanonical_of_done (append_ne_nil_left (encVarint_ne_nil _)) hstep

theorem skipCanonical_wt5 (n : Nat) (rest : List Nat) (ht : 8 * n + 5 < 2 ^ 64) :
    skipCanonical (encVarint (8 * n + 5) ++ rest) =
      .ok ((encVarint (8 * n + 5)).length + 4) := by
  have htag := decodeVarint_enc ht rest
  have hmod : (8 * n + 5) % 8 = 5 := by omega
  have hb1 := encVarint_length_le_ten ht
  have hstep : skipStep 0 0 (encVarint (8 * n + 5) ++ rest) =
      .done (.ok ((encVarint (8 * n + 5)).length + 4)) := by
    have hc : ¬ (9223372036854775808 : Nat) ≤ (encVarint (8 * n + 5)).length + 4 := by omega
    simp [skipStep, skipWire, htag, hmod, List.length_append, hc]
  exact skipCanonical_of_done (append_ne_nil_left (encVarint_ne_nil _)) hstep

theorem skipCanonical_wt4_depth0 (n : Nat) (rest : List Nat) (ht : 8 * n + 4 < 2 ^ 64) :
    skipCanonical (encVarint (8 * n + 4) ++ rest) = .error .unexpectedEndOfGroup := by
  have htag := decodeVarint_enc ht rest
  have hmod : (8 * n + 4) % 8 = 4 := by omega
  have hstep : skipStep 0 0 (encVarint (8 * n + 4) ++ rest) =
      .done (.error .unexpectedEndOfGroup) := by
    simp [skipStep, skipWire, htag, hmod]
  exact skipCanonical_of_done (append_ne_nil_left (encVarint_ne_nil _)) hstep

theorem skipCanonical_wt3_wt4 (n k : Nat) (rest : List Nat) (ht : 8 * n + 3 < 2 ^ 64)
    (hk : 8 * k + 4 < 2 ^ 64) :
    skipCanonical (encVarint (8 * n + 3) ++ (encVarint (8 * k + 4) ++ rest)) =
      .ok ((encVarint (8 * n + 3)).length + (encVarint (8 * k + 4)).length) := by
  have htag := decodeVarint_enc ht (encVarint (8 * k + 4) ++ rest)
  have htag2 := decodeVarint_enc hk rest
  have hmod : (8 * n + 3) % 8 = 3 := by omega
  have hmod2 : (8 * k + 4) % 8 = 4 := by omega
  have hb1 := encVarint_length_le_ten ht
  have hb2 := encVarint_length_le_ten hk
  have hs1 : skipStep 0 0 (encVarint (8 * n + 3) ++ (encVarint (8 * k + 4) ++ rest)) =
      .cont (encVarint (8 * n + 3)).length 1 (encVarint (8 * k + 4) ++ rest) := by
    have hc : ¬ (9223372036854775808 : Nat) ≤ (encVarint (8 * n + 3)).length := by omega
    simp [skipStep, skipWire, htag, hmod, List.length_append, hc]
  have hs2 : skipStep (encVarint (8 * n + 3)).length 1 (encVarint (8 * k + 4) ++ rest) =
      .done (.ok ((encVarint (8 * n + 3)).length + (encVarint (8 * k + 4)).length)) := by
    have hc : ¬ (9223372036854775808 : Nat) ≤ (encVarint (8 * n + 3)).length + (encVarint (8 * k + 4)).length := by
      omega
    simp [skipStep, skipWire, htag2, hmod2, List.length_append, hc]
  exact skipCanonical_of_cont_done (append_ne_nil_left (encVarint_ne_nil _))
    (append_ne_nil_left (encVarint_ne_nil _)) hs1 hs2

theorem skipCanonical_wt3_exhausted (n : Nat) (ht : 8 * n + 3 < 2 ^ 64) :
    skipCanonical (encVarint (8 * n + 3)) = .error .truncated := by
  have htag : decodeVarint (encVarint (8 * n + 3)) = .ok (8 * n + 3, []) := by
    have := decodeVarint_enc ht ([] : List Nat)
    simpa using this
  have hmod : (8 * n + 3) % 8 = 3 := by omega
  have hb1 := encVarint_length_le_ten ht
  have hs1 : skipStep 0 0 (encVarint (8 * n + 3)) =
      .cont (encVarint (8 * n + 3)).length 1 [] := by
    have hc : ¬ (9223372036854775808 : Nat) ≤ (encVarint (8 * n + 3)).length := by omega
    simp [skipStep, skipWire, htag, hmod, hc]
  exact skipCanonical_of_cont_nil (encVarint_ne_nil _) hs1

/-- The `default:` branch on an unknown field 99 (wire type 2) whose declared
length exceeds the remaining buffer reports `io.ErrUnexpectedEOF`. -/
theorem skipDefault_unknown99 {α : Type} (m : α) (L : Nat) (rest : List Nat)
    (hr : rest.length < L) (hL : L < 2 ^ 62) :
    skipDefault 0 m ([0x9a, 0x06] ++ (encVarint L ++ rest)) =
      .done (.error .truncated) := by
  have hten := encVarint_length_le_ten (show L < 2 ^ 64 by omega)
  have hskip : skipCanonical ([0x9a, 0x06] ++ (encVarint L ++ rest)) =
      .ok (2 + (encVarint L).length + L) := by
    have h := skipCanonical_wt2 99 L rest (by norm_num) (by omega)
    rw [show encVarint (8 * 99 + 2) = [0x9a, 0x06] from rfl] at h
    simpa using h
  unfold skipDefault
  rw [hskip]
  simp only []
  have h1 : ¬ 2 ^ 63 ≤ 0 + (2 + (encVarint L).length + L) := by omega
  have h2 : ([0x9a, 0x06] ++ (encVarint L ++ rest)).length < 2 + (encVarint L).length + L := by
    simp only [List.length_append, List.length_cons, List.length_nil]
    omega
  rw [if_neg h1, if_pos h2]

theorem unknown99_psh (L : Nat) (rest : List Nat) (hr : rest.length < L)
    (hL : L < 2 ^ 62) :
    CanonicalPartSetHeader.Unmarshal ([0x9a, 0x06] ++ (encVarint L ++ rest)) =
      .error .truncated := by
  have htag : decodeVarint (0x9a :: (0x06 :: (encVarint L ++ rest))) =
      .ok (794, encVarint L ++ rest) := by
    rw [show (0x9a :: (0x06 :: (encVarint L ++ rest)) : List Nat)
        = encVarint 794 ++ (encVarint L ++ rest) from rfl]
    exact decodeVarint_enc (by norm_num) _
  have hsd : skipDefault 0 (⟨0, []⟩ : CanonicalPartSetHeader)
      (0x9a :: (0x06 :: (encVarint L ++ rest))) = .done (.error .truncated) :=
    skipDefault_unknown99 (⟨0, []⟩ : CanonicalPartSetHeader) L rest hr hL
  have hstep : pshStep 0 ⟨0, []⟩ (0x9a :: (0x06 :: (encVarint L ++ rest))) =
      .done (.error .truncated) := by
    simp [pshStep, unmarshalPrelude, htag, hsd]
  exact runMsg_done hstep

theorem unknown99_blockID (L : Nat) (rest : List Nat) (hr : rest.length < L)
    (hL : L < 2 ^ 62) :
    CanonicalBlockID.Unmarshal ([0x9a, 0x06] ++ (encVarint L ++ rest)) =
      .error .truncated := by
  have htag : decodeVarint (0x9a :: (0x06 :: (encVarint L ++ rest))) =
      .ok (794, encVarint L ++ rest) := by
    rw [show (0x9a :: (0x06 :: (encVarint L ++ rest)) : List Nat)
        = encVarint 794 ++ (encVarint L ++ rest) from rfl]
    exact decodeVarint_enc (by norm_num) _
  have hsd : skipDefault 0 (⟨[], ⟨0, []⟩⟩ : CanonicalBlockID)
      (0x9a :: (0x06 :: (encVarint L ++ rest))) = .done (.error .truncated) :=
    skipDefault_unknown99 (⟨[], ⟨0, []⟩⟩ : CanonicalBlockID) L rest hr hL
  have hstep : blockIDStep 0 ⟨[], ⟨0, []⟩⟩ (0x9a :: (0x06 :: (encVarint L ++ rest))) =
      .done (.error .truncated) := by
    simp [blockIDStep, unmarshalPrelude, htag, hsd]
  exact runMsg_done hstep

theorem unknown99_proposal (L : Nat) (rest : List Nat) (hr : rest.length < L)
    (hL : L < 2 ^ 62) :
    CanonicalProposal.Unmarshal ([0x9a, 0x06] ++ (encVarint L ++ rest)) =
      .error .truncated := by
  have htag : decodeVarint (0x9a :: (0x06 :: (encVarint L ++ rest))) =
      .ok (794, encVarint L ++ rest) := by
    rw [show (0x9a :: (0x06 :: (encVarint L ++ rest)) : List Nat)
        = encVarint 794 ++ (encVarint L ++ rest) from rfl]
    exact decodeVarint_enc (by norm_num) _
  have hsd : skipDefault 0 (⟨0, 0, 0, 0, none, ⟨0, 0⟩, []⟩ : CanonicalProposal)
      (0x9a :: (0x06 :: (encVarint L ++ rest))) = .done (.error .truncated) :=
    skipDefault_unknown99 (⟨0, 0, 0, 0, none, ⟨0, 0⟩, []⟩ : CanonicalProposal) L rest hr hL
  have hstep : proposalStep 0 ⟨0, 0, 0, 0, none, ⟨0, 0⟩, []⟩
      (0x9a :: (0x06 :: (encVarint L ++ rest))) = .done (.error .truncated) := by
    simp [proposalStep, unmarshalPrelude, htag, hsd]
  exact runMsg_done hstep

theorem unknown99_vote (L : Nat) (rest : List Nat) (hr : rest.length < L)
    (hL : L < 2 ^ 62) :
    CanonicalVote.Unmarshal ([0x9a, 0x06] ++ (encVarint L ++ rest)) =
      .error .truncated := by
  have htag : decodeVarint (0x9a :: (0x06 :: (encVarint L ++ rest))) =
      .ok (794, encVarint L ++ rest) := by
    rw [show (0x9a :: (0x06 :: (encVarint L ++ rest)) : List Nat)
        = encVarint 794 ++ (encVarint L ++ rest) from rfl]
    exact decodeVarint_enc (by norm_num) _
  have hsd : skipDefault 0 (⟨0, 0, 0, none, ⟨0, 0⟩, [], none⟩ : CanonicalVote)
      (0x9a :: (0x06 :: (encVarint L ++ rest))) = .done (.error .truncated) :=
    skipDefault_unknown99 (⟨0, 0, 0, none, ⟨0, 0⟩, [], none⟩ : CanonicalVote) L rest hr hL
  have hstep : voteStep 0 ⟨0, 0, 0, none, ⟨0, 0⟩, [], none⟩
      (0x9a :: (0x06 :: (encVarint L ++ rest))) = .done (.error .truncated) := by
    simp [voteStep, unmarshalPrelude, htag, hsd]
  exact runMsg_done hstep

/-! ## Validity predicates (the data-model invariants of the spec, §3, plus
64-bit representability of the machine-integer fields and the transport bound
on byte-field lengths) -/

/-- A valid `CanonicalBlockID`: an empty hash (nil vote) implies an empty
part-set header; byte fields are transport-bounded and `total` fits `uint32`. -/
def ValidBlockID (b : CanonicalBlockID) : Prop :=
  (b.hash = [] → b.partSetHeader.total = 0 ∧ b.partSetHeader.hash = []) ∧
    b.hash.length < 2 ^ 32 ∧ b.partSetHeader.total < 2 ^ 32 ∧
    b.partSetHeader.hash.length < 2 ^ 32

instance (b : CanonicalBlockID) : Decidable (ValidBlockID b) := by
  unfold ValidBlockID
  infer_instance

/-- Validity of an optional `CanonicalBlockID`. -/
def ValidBlockIDOpt : Option CanonicalBlockID → Prop
  | none => True
  | some b => ValidBlockID b

instance : (o : Option CanonicalBlockID) → Decidable (ValidBlockIDOpt o)
  | none => .isTrue trivial
  | some b => inferInstanceAs (Decidable (ValidBlockID b))

/-- A normalized timestamp: nanoseconds in `[0, 1e9)`, seconds an `int64`. -/
def ValidTimestamp (ts : Timestamp) : Prop :=
  -2 ^ 63 ≤ ts.seconds ∧ ts.seconds < 2 ^ 63 ∧ 0 ≤ ts.nanos ∧ ts.nanos < 10 ^ 9

instance (ts : Timestamp) : Decidable (ValidTimestamp ts) := by
  unfold ValidTimestamp
  infer_instance

/-- Validity of an optional vote extension (transport-bounded payload). -/
def ValidVextOpt : Option VoteExtensionToSign → Prop
  | none => True
  | some e => e.ext.length < 2 ^ 32

instance : (o : Option VoteExtensionToSign) → Decidable (ValidVextOpt o)
  | none => .isTrue trivial
  | some e => inferInstanceAs (Decidable (e.ext.length < 2 ^ 32))

/-- A valid `CanonicalProposal` (spec §3: `height > 0`, `round ≥ 0`,
`pol_round ≥ −1`, valid nested values, machine-integer ranges). -/
def ValidProposal (p : CanonicalProposal) : Prop :=
  0 ≤ p.type ∧ p.type < 2 ^ 31 ∧ 0 < p.height ∧ p.height < 2 ^ 63 ∧
    0 ≤ p.round ∧ p.round < 2 ^ 63 ∧ -1 ≤ p.polRound ∧ p.polRound < 2 ^ 63 ∧
    ValidBlockIDOpt p.blockID ∧ ValidTimestamp p.timestamp ∧ p.chainID.length < 2 ^ 32

/-- A valid `CanonicalVote` (spec §3: enum type, `int64` height/round, valid
nested values). -/
def ValidVote (v : CanonicalVote) : Prop :=
  0 ≤ v.type ∧ v.type < 2 ^ 31 ∧ -2 ^ 63 ≤ v.height ∧ v.height < 2 ^ 63 ∧
    -2 ^ 63 ≤ v.round ∧ v.round < 2 ^ 63 ∧ ValidBlockIDOpt v.blockID ∧
    ValidTimestamp v.timestamp ∧ v.chainID.length < 2 ^ 32 ∧
    ValidVextOpt v.voteExtension

instance (p : CanonicalProposal) : Decidable (ValidProposal p) := by
  unfold ValidProposal
  infer_instance

instance (v : CanonicalVote) : Decidable (ValidVote v) := by
  unfold ValidVote
  infer_instance

/-! ## The claims -/

/-- C1: for every valid `CanonicalBlockID`, `CanonicalProposal` and
`CanonicalVote` (fields satisfying the data-model invariants: positive height,
non-negative round, `pol_round ≥ −1`, empty block-id hash implying an empty
part-set header, normalized timestamp), unmarshalling the bytes produced by
marshalling the value yields the value back: `decode(encode(x)) = x`. -/
theorem claim_C1_roundtrip :
    (∀ b : CanonicalBlockID, ValidBlockID b →
      CanonicalBlockID.Unmarshal b.Marshal = .ok b) ∧
    (∀ p : CanonicalProposal, ValidProposal p →
      CanonicalProposal.Unmarshal p.Marshal = .ok p) ∧
    (∀ v : CanonicalVote, ValidVote v →
      CanonicalVote.Unmarshal v.Marshal = .ok v) := by
  refine ⟨?_, ?_, ?_⟩
  · intro b hb
    obtain ⟨-, h1, h2, h3⟩ := hb
    exact blockID_roundtrip b h1 h2 h3
  · intro p hp
    obtain ⟨h1, h2, h3, h4, h5, h6, h7, h8, h9, ⟨t1, t2, t3, t4⟩, h11⟩ := hp
    refine proposal_roundtrip p (by omega) (by omega) (by omega) h4 (by omega) h6
      (by omega) h8 ?_ t1 t2 t3 t4 h11
    intro b hb
    rw [hb] at h9
    exact ⟨h9.2.1, h9.2.2.1, h9.2.2.2⟩
  · intro v hv
    obtain ⟨h1, h2, h3, h4, h5, h6, h7, ⟨t1, t2, t3, t4⟩, h9, h10⟩ := hv
    refine vote_roundtrip v (by omega) (by omega) h3 h4 h5 h6 ?_ t1 t2 t3 t4 h9 ?_
    · intro b hb
      rw [hb] at h7
      exact ⟨h7.2.1, h7.2.2.1, h7.2.2.2⟩
    · intro e he
      rw [he] at h10
      exact h10

/-- Witness for C1 at concrete valid values. -/
theorem claim_C1_roundtrip_witness :
    (ValidBlockID ⟨[1, 2], ⟨3, [4, 5]⟩⟩ ∧
      CanonicalBlockID.Unmarshal (CanonicalBlockID.Marshal ⟨[1, 2], ⟨3, [4, 5]⟩⟩) =
        .ok ⟨[1, 2], ⟨3, [4, 5]⟩⟩) ∧
    (ValidProposal ⟨32, 7, 2, -1, some ⟨[1, 2], ⟨3, [4, 5]⟩⟩, ⟨100, 5⟩, [99, 98]⟩ ∧
      CanonicalProposal.Unmarshal
        (CanonicalProposal.Marshal
          ⟨32, 7, 2, -1, some ⟨[1, 2], ⟨3, [4, 5]⟩⟩, ⟨100, 5⟩, [99, 98]⟩) =
        .ok ⟨32, 7, 2, -1, some ⟨[1, 2], ⟨3, [4, 5]⟩⟩, ⟨100, 5⟩, [99, 98]⟩) ∧
    (ValidVote ⟨2, 12345, 2, some ⟨[1, 2], ⟨3, [4, 5]⟩⟩, ⟨1704067200, 0⟩, [116],
        some ⟨[9]⟩⟩ ∧
      CanonicalVote.Unmarshal
        (CanonicalVote.Marshal
          ⟨2, 12345, 2, some ⟨[1, 2], ⟨3, [4, 5]⟩⟩, ⟨1704067200, 0⟩, [116], some ⟨[9]⟩⟩) =
        .ok ⟨2, 12345, 2, some ⟨[1, 2], ⟨3, [4, 5]⟩⟩, ⟨1704067200, 0⟩, [116],
          some ⟨[9]⟩⟩) := by
  refine ⟨⟨by decide, claim_C1_roundtrip.1 _ (by decide)⟩,
    ⟨by decide, claim_C1_roundtrip.2.1 _ (by decide)⟩,
    ⟨by decide, claim_C1_roundtrip.2.2 _ (by decide)⟩⟩

/-- C10: for every message value, the byte slice produced by `Marshal` has
exactly the length computed by `Size`, so buffers sized by `Size` are filled
completely. -/
theorem claim_C10_marshal_size :
    (∀ m : CanonicalBlockID, m.Marshal.length = m.Size) ∧
    (∀ m : CanonicalPartSetHeader, m.Marshal.length = m.Size) ∧
    (∀ m : CanonicalProposal, m.Marshal.length = m.Size) ∧
    (∀ m : CanonicalVote, m.Marshal.length = m.Size) :=
  ⟨bidMarshal_length, pshMarshal_length, proposalMarshal_length, voteMarshal_length⟩

theorem sovCanonical_pos (x : Nat) : 1 ≤ sovCanonical x := by
  have h0 : 0 < Nat.size (x ||| 1) := Nat.size_pos.mpr (by rw [lor_one_eq]; omega)
  rw [sovCanonical]
  omega

/-- The zig-zag mapping named by the spec's glossary: a bijection from signed
to unsigned integers giving compact encodings for small-magnitude negatives.
Modelled from the spec for comparison with the code's encoder; the generated
code never applies it to `pol_round`. -/
def zigZag (x : Int) : Nat := if 0 ≤ x then (2 * x).toNat else (-2 * x - 1).toNat

/-- The `pol_round` field bytes that claim C2 prescribes: tag 4 (byte `0x20`),
varint of the zig-zag mapping of the signed value, omitted when zero.
Modelled from the spec for comparison with the code's encoder. -/
def polRoundFieldZigZag (pol : Int) : List Nat :=
  if pol ≠ 0 then 0x20 :: encVarint (zigZag pol) else []

/-- C2 counterexample: at `pol_round = −1` the encoder emits the ten-byte
plain varint of the 64-bit two's-complement value `2^64 − 1`, not the
one-byte zig-zag encoding `1` the claim prescribes, so the claim's zig-zag
clause is false on the code. -/
theorem claim_C2_counterexample :
    zigZag (-1) = 1 ∧
    polRoundFieldZigZag (-1) ++ [0x32, 0x00] = [0x20, 0x01, 0x32, 0x00] ∧
    CanonicalProposal.Marshal ⟨0, 0, 0, -1, none, ⟨0, 0⟩, []⟩ =
      [0x20, 0xff, 0xff, 0xff, 0xff, 0xff, 0xff, 0xff, 0xff, 0xff, 0x01, 0x32, 0x00] ∧
    CanonicalProposal.Marshal ⟨0, 0, 0, -1, none, ⟨0, 0⟩, []⟩ ≠
      polRoundFieldZigZag (-1) ++ [0x32, 0x00] := by decide

/-- C2 as amended: `pol_round` is encoded under tag 4 as a plain varint of
its unsigned 64-bit (two's-complement) cast — not zig-zag — and is omitted
when zero: for every proposal, the encoding splits as the bytes of the lower
fields, then `0x20 ::` that varint when `pol_round ≠ 0` and nothing when it
is zero, then the bytes of the higher fields. `−1` is representable (as ten
bytes `ff…ff 01`) and round-trips losslessly through encode then decode. -/
theorem claim_C2_amended : ∀ pol : Int, -2 ^ 63 ≤ pol → pol < 2 ^ 63 →
    (∀ (ty h r : Int) (bid : Option CanonicalBlockID) (ts : Timestamp)
      (ch : List Nat), ∃ pre suf : List Nat,
      CanonicalProposal.Marshal ⟨ty, h, r, pol, bid, ts, ch⟩ =
        pre ++ ((if pol ≠ 0 then 0x20 :: encVarint (intToU64 pol) else []) ++ suf) ∧
      CanonicalProposal.Marshal ⟨ty, h, r, 0, bid, ts, ch⟩ = pre ++ suf) ∧
    (pol ≠ 0 → CanonicalProposal.Marshal ⟨0, 0, 0, pol, none, ⟨0, 0⟩, []⟩ =
      0x20 :: (encVarint (intToU64 pol) ++ [0x32, 0x00])) ∧
    (pol = 0 → CanonicalProposal.Marshal ⟨0, 0, 0, pol, none, ⟨0, 0⟩, []⟩ =
      [0x32, 0x00]) ∧
    CanonicalProposal.Unmarshal
      (CanonicalProposal.Marshal ⟨0, 0, 0, pol, none, ⟨0, 0⟩, []⟩) =
      .ok ⟨0, 0, 0, pol, none, ⟨0, 0⟩, []⟩ := by
  intro pol h1 h2
  refine ⟨?_, ?_, ?_, ?_⟩
  · intro ty h r bid ts ch
    refine ⟨(if ty ≠ 0 then 0x8 :: encVarint (intToU64 ty) else []) ++
        ((if h ≠ 0 then 0x11 :: putUint64LE (intToU64 h) else []) ++
          (if r ≠ 0 then 0x19 :: putUint64LE (intToU64 r) else [])),
      optBidField 0x2a bid ++
        ((0x32 :: (encVarint ts.Marshal.length ++ ts.Marshal)) ++
          (if 0 < ch.length then 0x3a :: (encVarint ch.length ++ ch) else [])),
      ?_, ?_⟩
    · cases bid <;> simp [CanonicalProposal.Marshal, optBidField]
    · cases bid <;> simp [CanonicalProposal.Marshal, optBidField]
  · intro hne
    simp [CanonicalProposal.Marshal, Timestamp.Marshal, hne,
      show encVarint 0 = [0] from rfl]
  · intro hz
    subst hz
    decide
  · refine proposal_roundtrip _ (by norm_num) (by norm_num) (by norm_num) (by norm_num)
      (by norm_num) (by norm_num) ?_ ?_ ?_ (by norm_num) (by norm_num) (by norm_num)
      (by norm_num) (by norm_num)
    · exact h1
    · exact h2
    · intro b hb
      simp at hb

/-- Witness for the amended C2 at `pol_round = −1` (field emitted as the
ten-byte plain varint, round-trips) and `pol_round = 0` (field omitted). -/
theorem claim_C2_amended_witness :
    CanonicalProposal.Marshal ⟨0, 0, 0, -1, none, ⟨0, 0⟩, []⟩ =
      0x20 :: (encVarint (intToU64 (-1)) ++ [0x32, 0x00]) ∧
    CanonicalProposal.Marshal ⟨0, 0, 0, 0, none, ⟨0, 0⟩, []⟩ = [0x32, 0x00] ∧
    CanonicalProposal.Unmarshal
      (CanonicalProposal.Marshal ⟨0, 0, 0, -1, none, ⟨0, 0⟩, []⟩) =
      .ok ⟨0, 0, 0, -1, none, ⟨0, 0⟩, []⟩ :=
  ⟨(claim_C2_amended (-1) (by norm_num) (by norm_num)).2.1 (by norm_num),
   (claim_C2_amended 0 (by norm_num) (by norm_num)).2.2.1 rfl,
   (claim_C2_amended (-1) (by norm_num) (by norm_num)).2.2.2⟩

/-- C3: the encoder always emits the timestamp field of a proposal (tag 6,
byte `0x32`) and of a vote (tag 5, byte `0x2a`), and the embedded
`part_set_header` of a block id (tag 2, byte `0x12`), even when zero-valued,
while every other zero-valued or empty field (type, height, round, pol_round,
chain id, part-set total and hash, block-id hash) is omitted. -/
theorem claim_C3_presence :
    (∀ (ts : Timestamp) (ch : List Nat),
      CanonicalProposal.Marshal ⟨0, 0, 0, 0, none, ts, ch⟩ =
        (0x32 :: (encVarint ts.Marshal.length ++ ts.Marshal)) ++
          (if 0 < ch.length then 0x3a :: (encVarint ch.length ++ ch) else [])) ∧
    (∀ (ts : Timestamp) (ch : List Nat),
      CanonicalVote.Marshal ⟨0, 0, 0, none, ts, ch, none⟩ =
        (0x2a :: (encVarint ts.Marshal.length ++ ts.Marshal)) ++
          (if 0 < ch.length then 0x32 :: (encVarint ch.length ++ ch) else [])) ∧
    (∀ psh : CanonicalPartSetHeader,
      CanonicalBlockID.Marshal ⟨[], psh⟩ =
        0x12 :: (encVarint psh.Marshal.length ++ psh.Marshal)) ∧
    CanonicalPartSetHeader.Marshal ⟨0, []⟩ = [] ∧
    CanonicalProposal.Marshal ⟨0, 0, 0, 0, none, ⟨0, 0⟩, []⟩ = [0x32, 0x00] ∧
    CanonicalVote.Marshal ⟨0, 0, 0, none, ⟨0, 0⟩, [], none⟩ = [0x2a, 0x00] := by
  refine ⟨?_, ?_, ?_, by decide, by decide, by decide⟩
  · intro ts ch
    simp [CanonicalProposal.Marshal]
  · intro ts ch
    simp [CanonicalVote.Marshal]
  · intro psh
    simp [CanonicalBlockID.Marshal]

/-- C4: two votes identical except for `vote_extension` presence encode to
byte strings of different lengths, and in particular never to equal bytes —
independent of the extension's contents (even an empty extension message
changes the length). -/
theorem claim_C4_extension :
    ∀ (ty h r : Int) (bid : Option CanonicalBlockID) (ts : Timestamp) (ch : List Nat)
      (e : VoteExtensionToSign),
      (CanonicalVote.Marshal ⟨ty, h, r, bid, ts, ch, some e⟩).length ≠
        (CanonicalVote.Marshal ⟨ty, h, r, bid, ts, ch, none⟩).length ∧
      CanonicalVote.Marshal ⟨ty, h, r, bid, ts, ch, some e⟩ ≠
        CanonicalVote.Marshal ⟨ty, h, r, bid, ts, ch, none⟩ := by
  intro ty h r bid ts ch e
  have hl1 := voteMarshal_length ⟨ty, h, r, bid, ts, ch, some e⟩
  have hl2 := voteMarshal_length ⟨ty, h, r, bid, ts, ch, none⟩
  have hsov := sovCanonical_pos e.Size
  have hsz : CanonicalVote.Size ⟨ty, h, r, bid, ts, ch, some e⟩ =
      CanonicalVote.Size ⟨ty, h, r, bid, ts, ch, none⟩ +
        (1 + e.Size + sovCanonical e.Size) := by
    simp [CanonicalVote.Size]
  have hne : (CanonicalVote.Marshal ⟨ty, h, r, bid, ts, ch, some e⟩).length ≠
      (CanonicalVote.Marshal ⟨ty, h, r, bid, ts, ch, none⟩).length := by
    rw [hl1, hl2, hsz]
    omega
  exact ⟨hne, fun hcon => hne (by rw [hcon])⟩

/-- C5: a proposal with zero type, height, round and pol_round, no block id,
a zero timestamp and a non-empty chain id encodes to exactly the
always-present timestamp field (`32 00`) followed by the tag-7 chain-id
field; every zero/empty scalar field vanishes. -/
theorem claim_C5_minimal :
    ∀ ch : List Nat, ch ≠ [] →
      CanonicalProposal.Marshal ⟨0, 0, 0, 0, none, ⟨0, 0⟩, ch⟩ =
        0x32 :: 0x00 :: 0x3a :: (encVarint ch.length ++ ch) := by
  intro ch hch
  have hp : 0 < ch.length := List.length_pos.mpr hch
  simp [CanonicalProposal.Marshal, Timestamp.Marshal, hp,
    show encVarint 0 = [0] from rfl]

/-- Witness for C5 at the chain id `"ab"`. -/
theorem claim_C5_minimal_witness :
    CanonicalProposal.Marshal ⟨0, 0, 0, 0, none, ⟨0, 0⟩, [97, 98]⟩ =
      0x32 :: 0x00 :: 0x3a :: (encVarint ([97, 98] : List Nat).length ++ [97, 98]) :=
  claim_C5_minimal [97, 98] (by decide)

/-- C6: `height` and `round` are encoded as exactly 8 little-endian bytes
(fixed64, tags 2 and 3) in proposals and votes regardless of sign or
magnitude, each field is omitted entirely when its value is zero, and
replacing a nonzero height/round by any other nonzero value never changes
the encoded length. -/
theorem claim_C6_fixed64 :
    (∀ v : Nat, (putUint64LE v).length = 8) ∧
    (∀ h : Int, h ≠ 0 →
      CanonicalProposal.Marshal ⟨0, h, 0, 0, none, ⟨0, 0⟩, []⟩ =
        0x11 :: (putUint64LE (intToU64 h) ++ [0x32, 0x00])) ∧
    (∀ r : Int, r ≠ 0 →
      CanonicalProposal.Marshal ⟨0, 0, r, 0, none, ⟨0, 0⟩, []⟩ =
        0x19 :: (putUint64LE (intToU64 r) ++ [0x32, 0x00])) ∧
    (∀ h : Int, h ≠ 0 →
      CanonicalVote.Marshal ⟨0, h, 0, none, ⟨0, 0⟩, [], none⟩ =
        0x11 :: (putUint64LE (intToU64 h) ++ [0x2a, 0x00])) ∧
    (∀ r : Int, r ≠ 0 →
      CanonicalVote.Marshal ⟨0, 0, r, none, ⟨0, 0⟩, [], none⟩ =
        0x19 :: (putUint64LE (intToU64 r) ++ [0x2a, 0x00])) ∧
    CanonicalProposal.Marshal ⟨0, 0, 0, 0, none, ⟨0, 0⟩, []⟩ = [0x32, 0x00] ∧
    CanonicalVote.Marshal ⟨0, 0, 0, none, ⟨0, 0⟩, [], none⟩ = [0x2a, 0x00] ∧
    (∀ (ty pol h1 h2 r1 r2 : Int) (bid : Option CanonicalBlockID) (ts : Timestamp)
      (ch : List Nat), h1 ≠ 0 → h2 ≠ 0 → r1 ≠ 0 → r2 ≠ 0 →
      (CanonicalProposal.Marshal ⟨ty, h1, r1, pol, bid, ts, ch⟩).length =
        (CanonicalProposal.Marshal ⟨ty, h2, r2, pol, bid, ts, ch⟩).length) ∧
    (∀ (ty h1 h2 r1 r2 : Int) (bid : Option CanonicalBlockID) (ts : Timestamp)
      (ch : List Nat) (ve : Option VoteExtensionToSign),
      h1 ≠ 0 → h2 ≠ 0 → r1 ≠ 0 → r2 ≠ 0 →
      (CanonicalVote.Marshal ⟨ty, h1, r1, bid, ts, ch, ve⟩).length =
        (CanonicalVote.Marshal ⟨ty, h2, r2, bid, ts, ch, ve⟩).length) := by
  refine ⟨putUint64LE_length, ?_, ?_, ?_, ?_, by decide, by decide, ?_, ?_⟩
  · intro h hne
    simp [CanonicalProposal.Marshal, Timestamp.Marshal, hne,
      show encVarint 0 = [0] from rfl]
  · intro r hne
    simp [CanonicalProposal.Marshal, Timestamp.Marshal, hne,
      show encVarint 0 = [0] from rfl]
  · intro h hne
    simp [CanonicalVote.Marshal, Timestamp.Marshal, hne,
      show encVarint 0 = [0] from rfl]
  · intro r hne
    simp [CanonicalVote.Marshal, Timestamp.Marshal, hne,
      show encVarint 0 = [0] from rfl]
  · intro ty pol h1 h2 r1 r2 bid ts ch hh1 hh2 hr1 hr2
    rw [proposalMarshal_length, proposalMarshal_length]
    simp [CanonicalProposal.Size, hh1, hh2, hr1, hr2]
  · intro ty h1 h2 r1 r2 bid ts ch ve hh1 hh2 hr1 hr2
    rw [voteMarshal_length, voteMarshal_length]
    simp [CanonicalVote.Size, hh1, hh2, hr1, hr2]

/-- Witness for C6: a negative height encodes as tag byte `0x11` plus 8
little-endian bytes, and changing a nonzero height/round to another nonzero
value of a very different magnitude keeps the vote's encoded length. -/
theorem claim_C6_fixed64_witness :
    CanonicalProposal.Marshal ⟨0, -5, 0, 0, none, ⟨0, 0⟩, []⟩ =
      0x11 :: (putUint64LE (intToU64 (-5)) ++ [0x32, 0x00]) ∧
    (CanonicalVote.Marshal ⟨0, 1, 1, none, ⟨0, 0⟩, [], none⟩).length =
      (CanonicalVote.Marshal ⟨0, 2 ^ 40, -1, none, ⟨0, 0⟩, [], none⟩).length :=
  ⟨claim_C6_fixed64.2.1 (-5) (by norm_num),
   claim_C6_fixed64.2.2.2.2.2.2.2.2 0 1 (2 ^ 40) 1 (-1) none ⟨0, 0⟩ [] none
     (by norm_num) (by norm_num) (by norm_num) (by norm_num)⟩

/-- C7: on a buffer holding the unknown field 99 with wire type 2 (tag bytes
`9a 06`) whose declared length exceeds the remaining bytes, each of the four
decoders returns the truncated error (Go `io.ErrUnexpectedEOF`); the skip
fails before any byte past the end is touched. -/
theorem claim_C7_unknown_field :
    ∀ (L : Nat) (rest : List Nat), rest.length < L → L < 2 ^ 62 →
      CanonicalPartSetHeader.Unmarshal ([0x9a, 0x06] ++ (encVarint L ++ rest)) =
        .error .truncated ∧
      CanonicalBlockID.Unmarshal ([0x9a, 0x06] ++ (encVarint L ++ rest)) =
        .error .truncated ∧
      CanonicalProposal.Unmarshal ([0x9a, 0x06] ++ (encVarint L ++ rest)) =
        .error .truncated ∧
      CanonicalVote.Unmarshal ([0x9a, 0x06] ++ (encVarint L ++ rest)) =
        .error .truncated := by
  intro L rest hr hL
  exact ⟨unknown99_psh L rest hr hL, unknown99_blockID L rest hr hL,
    unknown99_proposal L rest hr hL, unknown99_vote L rest hr hL⟩

/-- Witness for C7: unknown field 99, declared length 100, only two bytes
left. -/
theorem claim_C7_unknown_field_witness :
    CanonicalPartSetHeader.Unmarshal ([0x9a, 0x06] ++ (encVarint 100 ++ [1, 2])) =
      .error .truncated ∧
    CanonicalBlockID.Unmarshal ([0x9a, 0x06] ++ (encVarint 100 ++ [1, 2])) =
      .error .truncated ∧
    CanonicalProposal.Unmarshal ([0x9a, 0x06] ++ (encVarint 100 ++ [1, 2])) =
      .error .truncated ∧
    CanonicalVote.Unmarshal ([0x9a, 0x06] ++ (encVarint 100 ++ [1, 2])) =
      .error .truncated :=
  claim_C7_unknown_field 100 [1, 2] (by decide) (by norm_num)

/-- C8: varint decoding fails with the overflow error when ten continuation
bytes arrive without a terminator (the signal crosses 64 bits), and with the
truncated error when the buffer is exhausted before a byte without the
continuation bit. -/
theorem claim_C8_varint_errors :
    (∀ (pre rest : List Nat), pre.length = 10 → (∀ b ∈ pre, 128 ≤ b) →
      decodeVarint (pre ++ rest) = .error .overflow) ∧
    (∀ bs : List Nat, bs.length < 10 → (∀ b ∈ bs, 128 ≤ b) →
      decodeVarint bs = .error .truncated) := by
  constructor
  · intro pre rest hlen hall
    exact decodeVarintAux_overflow pre 0 0 rest hall (by omega)
  · intro bs hlen hall
    exact decodeVarintAux_truncated bs 0 0 hall (by omega)

/-- Witness for C8: ten `0xff` bytes overflow; nine `0xff` bytes truncate. -/
theorem claim_C8_varint_errors_witness :
    decodeVarint (List.replicate 10 0xff ++ []) = .error .overflow ∧
    decodeVarint (List.replicate 9 0xff) = .error .truncated :=
  ⟨claim_C8_varint_errors.1 (List.replicate 10 0xff) [] (by decide) (by decide),
   claim_C8_varint_errors.2 (List.replicate 9 0xff) (by decide) (by decide)⟩

/-- C9: the field skipper consumes one varint for wire type 0, 8 bytes for
wire type 1, a declared count of bytes for wire type 2, and 4 bytes for wire
type 5; a start-group (wire type 3) raises the depth so that a following
end-group completes the field, an end-group (wire type 4) at depth 0 fails
with the unexpected-end-of-group error, and exhaustion at positive depth is
the truncated error. -/
theorem claim_C9_skipper :
    (∀ (n v : Nat) (rest : List Nat), 1 ≤ n → 8 * n < 2 ^ 64 → v < 2 ^ 64 →
      skipCanonical (encVarint (8 * n) ++ (encVarint v ++ rest)) =
        .ok ((encVarint (8 * n)).length + (encVarint v).length)) ∧
    (∀ (n : Nat) (rest : List Nat), 1 ≤ n → 8 * n + 1 < 2 ^ 64 →
      skipCanonical (encVarint (8 * n + 1) ++ rest) =
        .ok ((encVarint (8 * n + 1)).length + 8)) ∧
    (∀ (n L : Nat) (rest : List Nat), 1 ≤ n → 8 * n + 2 < 2 ^ 64 →
      L + 30 < 2 ^ 63 →
      skipCanonical (encVarint (8 * n + 2) ++ (encVarint L ++ rest)) =
        .ok ((encVarint (8 * n + 2)).length + (encVarint L).length + L)) ∧
    (∀ (n : Nat) (rest : List Nat), 1 ≤ n → 8 * n + 5 < 2 ^ 64 →
      skipCanonical (encVarint (8 * n + 5) ++ rest) =
        .ok ((encVarint (8 * n + 5)).length + 4)) ∧
    (∀ (n : Nat) (rest : List Nat), 1 ≤ n → 8 * n + 4 < 2 ^ 64 →
      skipCanonical (encVarint (8 * n + 4) ++ rest) =
        .error .unexpectedEndOfGroup) ∧
    (∀ (n k : Nat) (rest : List Nat), 1 ≤ n → 1 ≤ k → 8 * n + 3 < 2 ^ 64 →
      8 * k + 4 < 2 ^ 64 →
      skipCanonical (encVarint (8 * n + 3) ++ (encVarint (8 * k + 4) ++ rest)) =
        .ok ((encVarint (8 * n + 3)).length + (encVarint (8 * k + 4)).length)) ∧
    (∀ n : Nat, 1 ≤ n → 8 * n + 3 < 2 ^ 64 →
      skipCanonical (encVarint (8 * n + 3)) = .error .truncated) :=
  ⟨fun n v rest _ ht hv => skipCanonical_wt0 n v rest ht hv,
   fun n rest _ ht => skipCanonical_wt1 n rest ht,
   fun n L rest _ ht hL => skipCanonical_wt2 n L rest ht hL,
   fun n rest _ ht => skipCanonical_wt5 n rest ht,
   fun n rest _ ht => skipCanonical_wt4_depth0 n rest ht,
   fun n k rest _ _ ht hk => skipCanonical_wt3_wt4 n k rest ht hk,
   fun n _ ht => skipCanonical_wt3_exhausted n ht⟩

/-- Witness for C9 at field number 1 (and inner end-group field 1). -/
theorem claim_C9_skipper_witness :
    skipCanonical (encVarint (8 * 1) ++ (encVarint 5 ++ [9])) =
      .ok ((encVarint (8 * 1)).length + (encVarint 5).length) ∧
    skipCanonical (encVarint (8 * 1 + 1) ++ [1, 2, 3, 4, 5, 6, 7, 8]) =
      .ok ((encVarint (8 * 1 + 1)).length + 8) ∧
    skipCanonical (encVarint (8 * 1 + 2) ++ (encVarint 3 ++ [7, 8, 9])) =
      .ok ((encVarint (8 * 1 + 2)).length + (encVarint 3).length + 3) ∧
    skipCanonical (encVarint (8 * 1 + 5) ++ [1, 2, 3, 4]) =
      .ok ((encVarint (8 * 1 + 5)).length + 4) ∧
    skipCanonical (encVarint (8 * 1 + 4) ++ [0]) = .error .unexpectedEndOfGroup ∧
    skipCanonical (encVarint (8 * 1 + 3) ++ (encVarint (8 * 1 + 4) ++ [7])) =
      .ok ((encVarint (8 * 1 + 3)).length + (encVarint (8 * 1 + 4)).length) ∧
    skipCanonical (encVarint (8 * 1 + 3)) = .error .truncated :=
  ⟨claim_C9_skipper.1 1 5 [9] (by norm_num) (by norm_num) (by norm_num),
   claim_C9_skipper.2.1 1 [1, 2, 3, 4, 5, 6, 7, 8] (by norm_num) (by norm_num),
   claim_C9_skipper.2.2.1 1 3 [7, 8, 9] (by norm_num) (by norm_num) (by norm_num),
   claim_C9_skipper.2.2.2.1 1 [1, 2, 3, 4] (by norm_num) (by norm_num),
   claim_C9_skipper.2.2.2.2.1 1 [0] (by norm_num) (by norm_num),
   claim_C9_skipper.2.2.2.2.2.1 1 1 [7] (by norm_num) (by norm_num) (by norm_num)
     (by norm_num),
   claim_C9_skipper.2.2.2.2.2.2 1 (by norm_num) (by norm_num)⟩

end Canonical
